import Mathlib

/-!
# egui-opencl-fractals: the escape-time core (`src/ocl/mandelutils.c`)

A shallow embedding of the complex-arithmetic and iteration engine.

* `FPN` (the build-time choice of `float` or `double`) is modelled in two ways.
  For the statements about control flow and about the expressions that are
  computed, it is an exact linearly ordered field `α` (concrete evaluations at
  `α := ℚ`); rounding, overflow, infinities and NaN are outside that model.
  For the statements that are decided by rounding, it is IEEE 754 binary64, the
  default `double` of the source (namespace `B64`).
* `int` is modelled as `Int`.  The only integer arithmetic in the file is
  `i += 1` (or `i++`) performed under the guard `i < MAXITER` (or `i < n`), which
  cannot overflow, so no wrap-around is needed.
* C truth values (`int` results of comparisons) are modelled as `Bool`.
* Every `while`/`for` loop is a recursive function on the loop state, with the
  loop condition copied from the source; termination is by the measure
  `MAXITER - i`.
-/

namespace Mandel

/-! ## Data model (`mandelstructs.h`) -/

/-- The struct `Complex_t` of `mandelstructs.h`: a pair of `FPN` fields. -/
structure Complex_t (α : Type) where
  re : α
  im : α
deriving DecidableEq, Repr

/-- The struct `Box_t` of `mandelstructs.h`: four `FPN` bounds. -/
structure Box_t (α : Type) where
  left : α
  right : α
  bot : α
  top : α
deriving DecidableEq, Repr

/-- Modelled from the spec: the type `ProxType_t` is used by `proximity` and
`_minprox` but its declaration is not in `mandelstructs.h`.  The spec describes
it as three independent boolean flags selecting the reference geometries
(unit circle, horizontal axis, vertical axis); the field names are the ones
read by `proximity`. -/
structure ProxType_t where
  to_unit_circ : Bool
  to_horizontal : Bool
  to_vertical : Bool
deriving DecidableEq, Repr

variable {α : Type} [LinearOrderedField α]

/-! ## Scalar helpers -/

/-- The C function `_abs`: `x > 0 ? x : -x`. -/
def _abs (x : α) : α := if x > 0 then x else -x

/-- The C function `_min`: `a < b ? a : b`. -/
def _min (a b : α) : α := if a < b then a else b

/-! ## Complex arithmetic -/

/-- The C function `complex_add`. -/
def complex_add (a b : Complex_t α) : Complex_t α :=
  { re := a.re + b.re, im := a.im + b.im }

/-- The C function `complex_mult`. -/
def complex_mult (a b : Complex_t α) : Complex_t α :=
  { re := a.re * b.re - a.im * b.im, im := a.im * b.re + a.re * b.im }

/-- The `for (int i = 1; i < n; i++) p = complex_mult(p, z);` loop of
`complex_pow`, as a function of the loop state `(p, i)`. -/
def complex_pow_loop (z : Complex_t α) (n : Int) (p : Complex_t α) (i : Int) : Complex_t α :=
  if i < n then complex_pow_loop z n (complex_mult p z) (i + 1) else p
termination_by (n - i).toNat
decreasing_by omega

/-- The C function `complex_pow`: `p = z`, then the loop from `i = 1`. -/
def complex_pow (z : Complex_t α) (n : Int) : Complex_t α :=
  complex_pow_loop z n z 1

/-- The C function `f`, the map that is iterated: `complex_add(complex_pow(z, 2), c)`. -/
def f (z c : Complex_t α) : Complex_t α :=
  complex_add (complex_pow z 2) c

/-! ## Membership predicates -/

/-- The C function `in_circle`. -/
def in_circle (z z0 : Complex_t α) (r : α) : Bool :=
  let dre := z.re - z0.re
  let dim := z.im - z0.im
  decide (dre * dre + dim * dim < r * r)

/-- The C function `in_box`: four strict comparisons. -/
def in_box (z : Complex_t α) (b : Box_t α) : Bool :=
  decide (z.re > b.left) && decide (z.re < b.right) &&
    decide (z.im > b.bot) && decide (z.im < b.top)

/-- The C function `in_bounds`: `in_circle(z, (FZERO, FZERO), 2)`. -/
def in_bounds (z : Complex_t α) : Bool :=
  in_circle z { re := 0, im := 0 } 2

/-! ## Proximity metric -/

/-- The C function `proximity`: three guarded updates of `res`, starting from
`1000 * FONE`. -/
def proximity (z : Complex_t α) (PROXTYPE : ProxType_t) : α :=
  let res : α := 1000 * 1
  let res := if PROXTYPE.to_unit_circ then _min res (z.re * z.re + z.im * z.im) else res
  let res := if PROXTYPE.to_horizontal then _min res (_abs z.re) else res
  let res := if PROXTYPE.to_vertical then _min res (_abs z.im) else res
  res

/-! ## Iteration drivers -/

/-- The `while (i < MAXITER && in_bounds(z))` loop of `_escape_iter`, as a
function of the loop state `(z, i)`; the value is the `i` at loop exit. -/
def _escape_iter_loop (c : Complex_t α) (MAXITER : Int) (z : Complex_t α) (i : Int) : Int :=
  if i < MAXITER ∧ in_bounds z = true then
    _escape_iter_loop c MAXITER (f z c) (i + 1)
  else i
termination_by (MAXITER - i).toNat
decreasing_by omega

/-- The C function `_escape_iter`: the loop entered with `i = 0`. -/
def _escape_iter (z c : Complex_t α) (MAXITER : Int) : Int :=
  _escape_iter_loop c MAXITER z 0

/-- A budgeted run of the loop of `_escape_iter`: the same loop, allowed at
most `fuel` executions of its body.  The value is `some i` when the loop
condition fails within the budget and `none` when the body would have to be
executed once more than the budget allows. -/
def _escape_iter_run (c : Complex_t α) (MAXITER : Int) : Nat → Complex_t α → Int → Option Int
  | 0, z, i => if i < MAXITER ∧ in_bounds z = true then none else some i
  | fuel + 1, z, i =>
    if i < MAXITER ∧ in_bounds z = true then
      _escape_iter_run c MAXITER fuel (f z c) (i + 1)
    else some i

/-- The `while` loop of `_minprox`, as a function of the loop state
`(z, dist, i)`; the value is the `dist` at loop exit. -/
def _minprox_loop (c : Complex_t α) (MAXITER : Int) (PROXTYPE : ProxType_t)
    (z : Complex_t α) (dist : α) (i : Int) : α :=
  if i < MAXITER ∧ in_bounds z = true then
    _minprox_loop c MAXITER PROXTYPE (f z c) (_min dist (proximity (f z c) PROXTYPE)) (i + 1)
  else dist
termination_by (MAXITER - i).toNat
decreasing_by omega

/-- The C function `_minprox`: `dist = proximity(z, PROXTYPE)`, then the loop
entered with `i = 0`. -/
def _minprox (z c : Complex_t α) (MAXITER : Int) (PROXTYPE : ProxType_t) : α :=
  _minprox_loop c MAXITER PROXTYPE z (proximity z PROXTYPE) 0

/-- The `while (i < MAXITER)` loop of `_orbit_trap`, as a function of the loop
state `(z, i)`; `res` is the accumulator initialised before the loop.  The body
increments `i`, steps `z`, and returns from inside the loop when the new `z` is
in the box; falling out of the loop returns `(FZERO, FZERO)`. -/
def _orbit_trap_loop (c : Complex_t α) (b : Box_t α) (MAXITER : Int) (res : Complex_t α)
    (z : Complex_t α) (i : Int) : Complex_t α :=
  if i < MAXITER then
    let i1 := i + 1
    let z1 := f z c
    if in_box z1 b = true then
      let res1 := complex_add res z1
      let res2 : Complex_t α := { res1 with re := res1.re / (b.right - b.left) }
      let res3 : Complex_t α := { res2 with im := res2.im / (b.top - b.bot) }
      res3
    else _orbit_trap_loop c b MAXITER res z1 i1
  else { re := 0, im := 0 }
termination_by (MAXITER - i).toNat
decreasing_by omega

/-- The C function `_orbit_trap`: `res = (-b.left, -b.bot)`, then the loop
entered with `i = 0`. -/
def _orbit_trap (z c : Complex_t α) (b : Box_t α) (MAXITER : Int) : Complex_t α :=
  _orbit_trap_loop c b MAXITER { re := -b.left, im := -b.bot } z 0

/-! ## Specification vocabulary -/

/-- The orbit of `z` under `f(., c)`: `z_0 = z`, `z_(i+1) = f(z_i, c)`. -/
def orbit (z c : Complex_t α) : Nat → Complex_t α
  | 0 => z
  | n + 1 => f (orbit z c n) c

/-- The squared modulus `z.re^2 + z.im^2`. -/
def normSq (z : Complex_t α) : α := z.re ^ 2 + z.im ^ 2

/-- The `n`-fold complex product of `z` with itself (the mathematical power
`z^n`), by recursion on the number of factors: the empty product is `1`, and one
more factor multiplies by `z`.  This is the specification side for
`complex_pow`; it is not taken from the source. -/
def complex_power_spec (z : Complex_t α) : Nat → Complex_t α
  | 0 => { re := 1, im := 0 }
  | n + 1 => complex_mult (complex_power_spec z n) z

/-! ## Binary64 reading of `FPN`

The claims about the two divisions of `_orbit_trap` and about orbits that start
outside the escape circle are decided by rounding, so for them `FPN` is read as the source's default `double`: IEEE 754 binary64
with round-to-nearest, ties-to-even, gradual underflow, signed zeros, infinities
and NaN.  Every C operator is one correctly rounded operation: the exact
rational result, rounded once (no fused multiply-add, no extended precision).
The functions of `mandelutils.c` used by these claims are embedded a second time
over this arithmetic, under the same names, in the namespace `B64`. -/

namespace B64

/-- The type `FPN` read as binary64: NaN, the two infinities, the two zeros
(`neg = true` for the negative one), and the nonzero finite numbers, carried as
rationals. -/
inductive FPN where
  | nan
  | inf (neg : Bool)
  | zero (neg : Bool)
  | fin (q : ℚ)
deriving DecidableEq, Repr

/-- The spacing of binary64 numbers around a positive magnitude `a`: `2^(e - 52)`
for the binade `2^e <= a < 2^(e+1)`, with `e` clamped below at `-1022`
(subnormal numbers share the spacing `2^-1074`). -/
def quantum (a : ℚ) : ℚ := (2 : ℚ) ^ (max (Int.log 2 a) (-1022) - 52)

/-- Rounding of a rational to the nearest integer, ties to the even one. -/
def roundHalfEven (q : ℚ) : ℤ :=
  if q - ⌊q⌋ < 1 / 2 then ⌊q⌋
  else if 1 / 2 < q - ⌊q⌋ then ⌊q⌋ + 1
  else if ⌊q⌋ % 2 = 0 then ⌊q⌋ else ⌊q⌋ + 1

/-- Rounding of a positive magnitude to the nearest multiple of its spacing,
ties to even (exponent range unbounded above). -/
def roundMag (a : ℚ) : ℚ := (roundHalfEven (a / quantum a) : ℚ) * quantum a

/-- Rounding of a nonzero exact result to binary64: overflow to the infinity of
the same sign when the rounded magnitude reaches `2^1024`, underflow to the zero
of the same sign when it rounds to `0`. -/
def rnd (x : ℚ) : FPN :=
  if (2 : ℚ) ^ (1024 : ℕ) ≤ roundMag |x| then FPN.inf (decide (x < 0))
  else if roundMag |x| = 0 then FPN.zero (decide (x < 0))
  else FPN.fin (if x < 0 then -roundMag |x| else roundMag |x|)

/-- The C unary minus on `FPN`: the sign is flipped, also on zeros and infinities. -/
def fneg : FPN → FPN
  | .nan => .nan
  | .inf s => .inf (!s)
  | .zero s => .zero (!s)
  | .fin x => .fin (-x)

/-- The C operator `+` on `FPN`.  An exact sum that is zero is `+0`, except
`(-0) + (-0) = -0`; `inf + (-inf)` is NaN. -/
def fadd : FPN → FPN → FPN
  | .nan, _ => .nan
  | _, .nan => .nan
  | .inf s, .inf t => if s = t then .inf s else .nan
  | .inf s, _ => .inf s
  | _, .inf t => .inf t
  | .zero s, .zero t => .zero (s && t)
  | .zero _, .fin y => .fin y
  | .fin x, .zero _ => .fin x
  | .fin x, .fin y => if x + y = 0 then .zero false else rnd (x + y)

/-- The C operator `-` on `FPN`: `a - b` is `a + (-b)`. -/
def fsub (a b : FPN) : FPN := fadd a (fneg b)

/-- The C operator `*` on `FPN`; `0 * inf` is NaN, the sign of a zero or infinite
product is the exclusive or of the signs. -/
def fmul : FPN → FPN → FPN
  | .nan, _ => .nan
  | _, .nan => .nan
  | .inf _, .zero _ => .nan
  | .zero _, .inf _ => .nan
  | .inf s, .inf t => .inf (xor s t)
  | .inf s, .fin y => .inf (xor s (decide (y < 0)))
  | .fin x, .inf t => .inf (xor (decide (x < 0)) t)
  | .zero s, .zero t => .zero (xor s t)
  | .zero s, .fin y => .zero (xor s (decide (y < 0)))
  | .fin x, .zero t => .zero (xor (decide (x < 0)) t)
  | .fin x, .fin y => rnd (x * y)

/-- The C operator `/` on `FPN`; `0 / 0` and `inf / inf` are NaN, a nonzero
number divided by a zero is an infinity. -/
def fdiv : FPN → FPN → FPN
  | .nan, _ => .nan
  | _, .nan => .nan
  | .inf _, .inf _ => .nan
  | .zero _, .zero _ => .nan
  | .inf s, .zero t => .inf (xor s t)
  | .inf s, .fin y => .inf (xor s (decide (y < 0)))
  | .zero s, .inf t => .zero (xor s t)
  | .zero s, .fin y => .zero (xor s (decide (y < 0)))
  | .fin x, .inf t => .zero (xor (decide (x < 0)) t)
  | .fin x, .zero t => .inf (xor (decide (x < 0)) t)
  | .fin x, .fin y => rnd (x / y)

/-- The C operator `<` on `FPN`: false when an operand is NaN, and the two zeros
compare equal. -/
def flt : FPN → FPN → Bool
  | .nan, _ => false
  | _, .nan => false
  | .inf s, .inf t => s && !t
  | .inf s, _ => s
  | _, .inf t => !t
  | .zero _, .zero _ => false
  | .zero _, .fin y => decide (0 < y)
  | .fin x, .zero _ => decide (x < 0)
  | .fin x, .fin y => decide (x < y)

/-- The C operator `>` on `FPN`. -/
def fgt (a b : FPN) : Bool := flt b a

/-- A nonzero rational is a binary64 number: a normal number `m * 2^e` with a
53-bit significand `2^52 <= m < 2^53` and `-1074 <= e <= 971`, or a subnormal
number `m * 2^-1074` with `0 < m < 2^52`, of either sign. -/
def Representable (q : ℚ) : Prop :=
  ∃ (m : ℕ) (e : ℤ),
    ((2 ^ 52 ≤ m ∧ m < 2 ^ 53 ∧ -1074 ≤ e ∧ e ≤ 971) ∨ (0 < m ∧ m < 2 ^ 52 ∧ e = -1074)) ∧
    |q| = (m : ℚ) * (2 : ℚ) ^ e

/-- Well-formedness of a value of the model: the rational carried by `fin` is a
binary64 number.  NaN, the infinities and the zeros are always well formed. -/
def IsBinary64 : FPN → Prop
  | .fin q => Representable q
  | _ => True

/-- A value that is NaN, `+0`, or a number in the interval `(0, 1]`. -/
def UnitOrNaN (v : FPN) : Prop :=
  v = FPN.nan ∨ v = FPN.zero false ∨ ∃ q : ℚ, v = FPN.fin q ∧ 0 < q ∧ q ≤ 1

/-- Proof vocabulary for the normalisation step of `_orbit_trap`: a numerator and
a divisor with `0 <= num <= den` and `0 < den`, where either may have overflowed
to `+inf`. -/
def TrapPair (num den : FPN) : Prop :=
  (den = FPN.inf false ∧
      (num = FPN.inf false ∨ num = FPN.zero false ∨ ∃ n : ℚ, num = FPN.fin n ∧ 0 < n)) ∨
  (∃ d : ℚ, den = FPN.fin d ∧ 0 < d ∧
      (num = FPN.zero false ∨ ∃ n : ℚ, num = FPN.fin n ∧ 0 < n ∧ n ≤ d))

/-- The C function `complex_add` over binary64. -/
def complex_add (a b : Complex_t FPN) : Complex_t FPN :=
  { re := fadd a.re b.re, im := fadd a.im b.im }

/-- The C function `complex_mult` over binary64. -/
def complex_mult (a b : Complex_t FPN) : Complex_t FPN :=
  { re := fsub (fmul a.re b.re) (fmul a.im b.im),
    im := fadd (fmul a.im b.re) (fmul a.re b.im) }

/-- The `for` loop of `complex_pow` over binary64, as a function of the loop
state `(p, i)`. -/
def complex_pow_loop (z : Complex_t FPN) (n : Int) (p : Complex_t FPN) (i : Int) :
    Complex_t FPN :=
  if i < n then complex_pow_loop z n (complex_mult p z) (i + 1) else p
termination_by (n - i).toNat
decreasing_by omega

/-- The C function `complex_pow` over binary64. -/
def complex_pow (z : Complex_t FPN) (n : Int) : Complex_t FPN :=
  complex_pow_loop z n z 1

/-- The C function `f` over binary64: `complex_add(complex_pow(z, 2), c)`. -/
def f (z c : Complex_t FPN) : Complex_t FPN :=
  complex_add (complex_pow z 2) c

/-- The C function `in_box` over binary64: four strict comparisons. -/
def in_box (z : Complex_t FPN) (b : Box_t FPN) : Bool :=
  fgt z.re b.left && flt z.re b.right && fgt z.im b.bot && flt z.im b.top

/-- The `while (i < MAXITER)` loop of `_orbit_trap` over binary64, as a function
of the loop state `(z, i)`; `res` is the accumulator initialised before the loop. -/
def _orbit_trap_loop (c : Complex_t FPN) (b : Box_t FPN) (MAXITER : Int) (res : Complex_t FPN)
    (z : Complex_t FPN) (i : Int) : Complex_t FPN :=
  if i < MAXITER then
    let i1 := i + 1
    let z1 := f z c
    if in_box z1 b = true then
      let res1 := complex_add res z1
      let res2 : Complex_t FPN := { res1 with re := fdiv res1.re (fsub b.right b.left) }
      let res3 : Complex_t FPN := { res2 with im := fdiv res2.im (fsub b.top b.bot) }
      res3
    else _orbit_trap_loop c b MAXITER res z1 i1
  else { re := FPN.zero false, im := FPN.zero false }
termination_by (MAXITER - i).toNat
decreasing_by omega

/-- The C function `_orbit_trap` over binary64: `res = (-b.left, -b.bot)`, then
the loop entered with `i = 0`. -/
def _orbit_trap (z c : Complex_t FPN) (b : Box_t FPN) (MAXITER : Int) : Complex_t FPN :=
  _orbit_trap_loop c b MAXITER { re := fneg b.left, im := fneg b.bot } z 0

/-- The orbit of `z` under the binary64 `f(., c)`: `z_0 = z`, `z_(i+1) = f(z_i, c)`. -/
def orbit (z c : Complex_t FPN) : Nat → Complex_t FPN
  | 0 => z
  | n + 1 => f (orbit z c n) c

/-- The C function `in_circle` over binary64. -/
def in_circle (z z0 : Complex_t FPN) (r : FPN) : Bool :=
  let dre := fsub z.re z0.re
  let dim := fsub z.im z0.im
  flt (fadd (fmul dre dre) (fmul dim dim)) (fmul r r)

/-- The C function `in_bounds` over binary64: `in_circle(z, (FZERO, FZERO), 2)`. -/
def in_bounds (z : Complex_t FPN) : Bool :=
  in_circle z { re := FPN.zero false, im := FPN.zero false } (FPN.fin 2)

/-- The squared modulus `z.re * z.re + z.im * z.im` as the source computes it
(two rounded products and a rounded sum). -/
def normSq (z : Complex_t FPN) : FPN := fadd (fmul z.re z.re) (fmul z.im z.im)

/-- The magnitude of `v` is at most `m`: `v` is a zero or a finite number with
`|v| <= m`. -/
def MagLe : FPN → ℚ → Prop
  | .zero _, _ => True
  | .fin q, m => |q| ≤ m
  | _, _ => False

end B64

/-! ## Basic facts about the primitives -/

theorem complex_pow_two (z : Complex_t α) : complex_pow z 2 = complex_mult z z := by
  unfold complex_pow
  rw [complex_pow_loop, if_pos (by norm_num), complex_pow_loop, if_neg (by norm_num)]

theorem f_eq (z c : Complex_t α) :
    f z c = { re := z.re * z.re - z.im * z.im + c.re, im := z.im * z.re + z.re * z.im + c.im } := by
  simp [f, complex_pow_two, complex_mult, complex_add]

theorem in_bounds_iff (z : Complex_t α) : in_bounds z = true ↔ normSq z < 4 := by
  simp only [in_bounds, in_circle, normSq, decide_eq_true_eq, sub_zero]
  constructor <;> intro h <;> nlinarith

theorem in_bounds_eq_false_iff (z : Complex_t α) : in_bounds z = false ↔ 4 ≤ normSq z := by
  rw [← not_lt, ← in_bounds_iff]; simp

theorem orbit_succ_eq (z c : Complex_t α) (n : Nat) :
    orbit z c (n + 1) = orbit (f z c) c n := by
  induction n with
  | zero => rfl
  | succ n ih => rw [orbit, ih, orbit]

/-! ## The loop of `_escape_iter` -/

/-- If the loop is entered at `(z, i)` and the next `k` conditions hold while the
`k`-th fails, the loop exits with `i + k`. -/
theorem escape_iter_loop_eq (c : Complex_t α) (M : Int) :
    ∀ (k : Nat) (z : Complex_t α) (i : Int),
      (∀ j : Nat, j < k → i + j < M ∧ in_bounds (orbit z c j) = true) →
      (M ≤ i + k ∨ in_bounds (orbit z c k) = false) →
      _escape_iter_loop c M z i = i + k := by
  intro k
  induction k with
  | zero =>
    intro z i _ hstop
    rw [_escape_iter_loop, if_neg]
    · simp
    · rintro ⟨h1, h2⟩
      rcases hstop with h | h
      · simp at h; omega
      · simp [orbit, h2] at h
  | succ k ih =>
    intro z i hrun hstop
    have h0 := hrun 0 (Nat.succ_pos k)
    rw [_escape_iter_loop, if_pos (by simpa [orbit] using h0), ih (f z c) (i + 1)]
    · push_cast; ring
    · intro j hj
      have := hrun (j + 1) (Nat.succ_lt_succ hj)
      rw [orbit_succ_eq] at this
      push_cast at this
      exact ⟨by omega, this.2⟩
    · rw [← orbit_succ_eq]
      push_cast at hstop
      rcases hstop with h | h
      · left; omega
      · right; exact h

/-- From any state the loop condition fails after finitely many steps. -/
theorem exists_exit_index (c : Complex_t α) (M : Int) :
    ∀ (n : Nat) (z : Complex_t α) (i : Int), (M - i).toNat = n →
      ∃ k : Nat, (∀ j : Nat, j < k → i + j < M ∧ in_bounds (orbit z c j) = true) ∧
        (M ≤ i + k ∨ in_bounds (orbit z c k) = false) := by
  intro n
  induction n with
  | zero =>
    intro z i hn
    exact ⟨0, by simp, Or.inl (by simp; omega)⟩
  | succ n ih =>
    intro z i hn
    by_cases hb : in_bounds z = true
    · obtain ⟨k, hk1, hk2⟩ := ih (f z c) (i + 1) (by omega)
      refine ⟨k + 1, ?_, ?_⟩
      · intro j hj
        cases j with
        | zero => exact ⟨by simp; omega, by simpa [orbit] using hb⟩
        | succ j =>
          have := hk1 j (by omega)
          rw [orbit_succ_eq]
          push_cast
          exact ⟨by omega, this.2⟩
      · rw [orbit_succ_eq]
        push_cast
        rcases hk2 with h | h
        · left; omega
        · right; exact h
    · exact ⟨0, by simp, Or.inr (by simpa [orbit] using hb)⟩

/-- The budgeted run agrees with the loop: with exactly `k` body executions it
exits with `i + k`, and with fewer it runs out of budget. -/
theorem escape_iter_run_eq (c : Complex_t α) (M : Int) :
    ∀ (k : Nat) (z : Complex_t α) (i : Int),
      (∀ j : Nat, j < k → i + j < M ∧ in_bounds (orbit z c j) = true) →
      (M ≤ i + k ∨ in_bounds (orbit z c k) = false) →
      _escape_iter_run c M k z i = some (i + k) ∧
        ∀ m : Nat, m < k → _escape_iter_run c M m z i = none := by
  intro k
  induction k with
  | zero =>
    intro z i _ hstop
    refine ⟨?_, by simp⟩
    rw [_escape_iter_run, if_neg]
    · simp
    · rintro ⟨h1, h2⟩
      rcases hstop with h | h
      · simp at h; omega
      · simp [orbit, h2] at h
  | succ k ih =>
    intro z i hrun hstop
    have h0 : i < M ∧ in_bounds z = true := by
      simpa [orbit] using hrun 0 (Nat.succ_pos k)
    have hrun1 : ∀ j : Nat, j < k → i + 1 + j < M ∧ in_bounds (orbit (f z c) c j) = true := by
      intro j hj
      have := hrun (j + 1) (Nat.succ_lt_succ hj)
      rw [orbit_succ_eq] at this
      push_cast at this
      exact ⟨by omega, this.2⟩
    have hstop1 : M ≤ i + 1 + k ∨ in_bounds (orbit (f z c) c k) = false := by
      rw [← orbit_succ_eq]
      push_cast at hstop
      rcases hstop with h | h
      · left; omega
      · right; exact h
    obtain ⟨ih1, ih2⟩ := ih (f z c) (i + 1) hrun1 hstop1
    constructor
    · rw [_escape_iter_run, if_pos h0, ih1]
      push_cast
      congr 1
      ring
    · intro m hm
      cases m with
      | zero => rw [_escape_iter_run, if_pos h0]
      | succ m => rw [_escape_iter_run, if_pos h0]; exact ih2 m (by omega)

/-! ## Escape-time driver: claims C1, C7, C8, C9 -/

/-- C1: for `MAXITER >= 0`, `_escape_iter(z, c, MAXITER)` returns the least index
`k < MAXITER` whose orbit point `z_k` is not inside the escape circle, and
returns `MAXITER` when every `z_i` with `i < MAXITER` is inside it. -/
theorem escape_iter_least_exit (z c : Complex_t α) (MAXITER : Int) (hM : 0 ≤ MAXITER) :
    (∀ k : Nat, (k : Int) < MAXITER → in_bounds (orbit z c k) = false →
        (∀ j : Nat, j < k → in_bounds (orbit z c j) = true) →
        _escape_iter z c MAXITER = (k : Int)) ∧
    ((∀ i : Nat, (i : Int) < MAXITER → in_bounds (orbit z c i) = true) →
        _escape_iter z c MAXITER = MAXITER) := by
  constructor
  · intro k hk hout hin
    have := escape_iter_loop_eq c MAXITER k z 0
      (fun j hj => ⟨by omega, hin j hj⟩) (Or.inr hout)
    simpa [_escape_iter] using this
  · intro hin
    have := escape_iter_loop_eq c MAXITER MAXITER.toNat z 0
      (fun j hj => ⟨by omega, hin j (by omega)⟩) (Or.inl (by omega))
    rw [_escape_iter, this]
    omega

/-- Witness for C1 at `z = (0,0)`, `c = (1,0)`, `MAXITER = 50` over `ℚ`: the
orbit is `0, 1, 2, ...` and the first point outside the circle is `z_2`. -/
theorem escape_iter_least_exit_witness :
    (0 : Int) ≤ 50 ∧ _escape_iter ({ re := 0, im := 0 } : Complex_t ℚ) { re := 1, im := 0 } 50 = 2 :=
  ⟨by decide,
   (escape_iter_least_exit ({ re := 0, im := 0 } : Complex_t ℚ) { re := 1, im := 0 } 50
      (by decide)).1 2 (by decide)
      (by simp [orbit, f_eq, in_bounds, in_circle]; norm_num)
      (by
        intro j hj
        interval_cases j
        · simp [orbit, in_bounds, in_circle]
        · simp [orbit, f_eq, in_bounds, in_circle]; norm_num)⟩

/-- C7: for `MAXITER >= 0` the loop of `_escape_iter` terminates after `n` body
executions for some `n <= MAXITER + 1` (a budget of `n` executions reaches the
exit with the returned count, no smaller budget does), and the returned count
`r` satisfies `0 <= r <= MAXITER`. -/
theorem escape_iter_terminates (z c : Complex_t α) (MAXITER : Int) (hM : 0 ≤ MAXITER) :
    ∃ n : Nat, (n : Int) ≤ MAXITER + 1 ∧
      _escape_iter_run c MAXITER n z 0 = some (_escape_iter z c MAXITER) ∧
      (∀ m : Nat, m < n → _escape_iter_run c MAXITER m z 0 = none) ∧
      0 ≤ _escape_iter z c MAXITER ∧ _escape_iter z c MAXITER ≤ MAXITER := by
  obtain ⟨k, hk1, hk2⟩ := exists_exit_index c MAXITER _ z 0 rfl
  have hloop := escape_iter_loop_eq c MAXITER k z 0 hk1 hk2
  obtain ⟨hrun, hnone⟩ := escape_iter_run_eq c MAXITER k z 0 hk1 hk2
  have hle : (k : Int) ≤ MAXITER := by
    cases k with
    | zero => simpa using hM
    | succ k =>
      have := (hk1 k (Nat.lt_succ_self k)).1
      push_cast
      omega
  refine ⟨k, by omega, ?_, hnone, ?_, ?_⟩
  · rw [_escape_iter, hloop, hrun]
  · rw [_escape_iter, hloop]; omega
  · rw [_escape_iter, hloop]; omega

/-- Witness for C7 at `z = (0,0)`, `c = (1,0)`, `MAXITER = 50` over `ℚ`. -/
theorem escape_iter_terminates_witness :
    (0 : Int) ≤ 50 ∧ ∃ n : Nat, (n : Int) ≤ 50 + 1 ∧
      _escape_iter_run ({ re := 1, im := 0 } : Complex_t ℚ) 50 n { re := 0, im := 0 } 0 =
        some (_escape_iter ({ re := 0, im := 0 } : Complex_t ℚ) { re := 1, im := 0 } 50) ∧
      (∀ m : Nat, m < n →
        _escape_iter_run ({ re := 1, im := 0 } : Complex_t ℚ) 50 m { re := 0, im := 0 } 0 = none) ∧
      0 ≤ _escape_iter ({ re := 0, im := 0 } : Complex_t ℚ) { re := 1, im := 0 } 50 ∧
      _escape_iter ({ re := 0, im := 0 } : Complex_t ℚ) { re := 1, im := 0 } 50 ≤ 50 :=
  ⟨by decide, escape_iter_terminates _ _ 50 (by decide)⟩

theorem orbit_origin (n : Nat) :
    orbit ({ re := 0, im := 0 } : Complex_t α) { re := 0, im := 0 } n = { re := 0, im := 0 } := by
  induction n with
  | zero => rfl
  | succ n ih => rw [orbit, ih, f_eq]; simp

/-- C8: for every `MAXITER >= 0`, `_escape_iter((0,0), (0,0), MAXITER)` returns
`MAXITER`: the origin never escapes under `z^2`. -/
theorem escape_iter_origin (MAXITER : Int) (hM : 0 ≤ MAXITER) :
    _escape_iter ({ re := 0, im := 0 } : Complex_t α) { re := 0, im := 0 } MAXITER = MAXITER := by
  have := escape_iter_loop_eq ({ re := 0, im := 0 } : Complex_t α) MAXITER MAXITER.toNat
    { re := 0, im := 0 } 0
    (fun j hj => ⟨by omega, by rw [orbit_origin, in_bounds_iff]; simp [normSq]⟩)
    (Or.inl (by omega))
  rw [_escape_iter, this]
  omega

/-- Witness for C8: `MAXITER = 50` returns `50` (over `ℚ`). -/
theorem escape_iter_origin_witness :
    (0 : Int) ≤ 50 ∧
      _escape_iter ({ re := 0, im := 0 } : Complex_t ℚ) { re := 0, im := 0 } 50 = 50 :=
  ⟨by decide, escape_iter_origin 50 (by decide)⟩

/-- C9: for every `c`, every `MAXITER` and every `z` with
`z.re^2 + z.im^2 >= 4`, `_escape_iter(z, c, MAXITER)` returns `0`. -/
theorem escape_iter_outside (z c : Complex_t α) (MAXITER : Int)
    (hz : z.re ^ 2 + z.im ^ 2 ≥ 4) : _escape_iter z c MAXITER = 0 := by
  have hout : in_bounds (orbit z c 0) = false := by
    rw [orbit, in_bounds_eq_false_iff]; exact hz
  have := escape_iter_loop_eq c MAXITER 0 z 0 (by simp) (Or.inr hout)
  simpa [_escape_iter] using this

/-- Witness for C9: `z = (3,0)`, `c = (0,0)`, `MAXITER = 50` returns `0` (over `ℚ`). -/
theorem escape_iter_outside_witness :
    ((3 : ℚ) ^ 2 + (0 : ℚ) ^ 2 ≥ 4) ∧
      _escape_iter ({ re := 3, im := 0 } : Complex_t ℚ) { re := 0, im := 0 } 50 = 0 :=
  ⟨by norm_num,
   escape_iter_outside ({ re := 3, im := 0 } : Complex_t ℚ) { re := 0, im := 0 } 50 (by norm_num)⟩

/-! ## Proximity metric: claim C5 -/

theorem _min_eq_min (a b : α) : _min a b = min a b := by
  unfold _min
  split_ifs with h
  · exact (min_eq_left h.le).symm
  · exact (min_eq_right (not_lt.mp h)).symm

theorem _abs_eq_abs (x : α) : _abs x = |x| := by
  unfold _abs
  split_ifs with h
  · exact (abs_of_pos h).symm
  · exact (abs_of_nonpos (not_lt.mp h)).symm

theorem min_mem_of_mem {S : Set α} {x y : α} (hx : x ∈ S) (hy : y ∈ S) : min x y ∈ S := by
  rcases min_choice x y with h | h <;> rw [h] <;> assumption

/-- The three guarded updates of `proximity` as nested minima. -/
theorem proximity_eq (z : Complex_t α) (s : ProxType_t) :
    proximity z s =
      min (min (min 1000 (if s.to_unit_circ = true then z.re ^ 2 + z.im ^ 2 else 1000))
        (if s.to_horizontal = true then |z.re| else 1000))
        (if s.to_vertical = true then |z.im| else 1000) := by
  rcases s with ⟨a, b, d⟩
  cases a <;> cases b <;> cases d <;>
    simp [proximity, _min_eq_min, _abs_eq_abs, pow_two]

/-- C5: `proximity(z, selector)` is the minimum of `1000` and of those of the
terms `z.re^2 + z.im^2` (`to_unit_circ`), `|z.re|` (`to_horizontal`), `|z.im|`
(`to_vertical`) whose flag is set; with no flag set it is `1000`. -/
theorem proximity_isLeast (z : Complex_t α) (s : ProxType_t) :
    IsLeast {x : α | x = 1000 ∨ (s.to_unit_circ = true ∧ x = z.re ^ 2 + z.im ^ 2) ∨
        (s.to_horizontal = true ∧ x = |z.re|) ∨ (s.to_vertical = true ∧ x = |z.im|)}
      (proximity z s) ∧
    proximity z { to_unit_circ := false, to_horizontal := false, to_vertical := false } = 1000 := by
  refine ⟨⟨?_, ?_⟩, by simp [proximity_eq]⟩
  · rw [proximity_eq]
    refine min_mem_of_mem (min_mem_of_mem (min_mem_of_mem (Or.inl rfl) ?_) ?_) ?_
    · split_ifs with h
      · exact Or.inr (Or.inl ⟨h, rfl⟩)
      · exact Or.inl rfl
    · split_ifs with h
      · exact Or.inr (Or.inr (Or.inl ⟨h, rfl⟩))
      · exact Or.inl rfl
    · split_ifs with h
      · exact Or.inr (Or.inr (Or.inr ⟨h, rfl⟩))
      · exact Or.inl rfl
  · rw [proximity_eq]
    rintro x (rfl | ⟨h, rfl⟩ | ⟨h, rfl⟩ | ⟨h, rfl⟩)
    · exact le_trans (min_le_left _ _) (le_trans (min_le_left _ _) (min_le_left _ _))
    · rw [if_pos h]
      exact le_trans (min_le_left _ _) (le_trans (min_le_left _ _) (min_le_right _ _))
    · rw [if_pos h]
      exact le_trans (min_le_left _ _) (min_le_right _ _)
    · rw [if_pos h]
      exact min_le_right _ _

/-! ## Minimum-proximity driver: claims C2, C10 -/

/-- If the loop of `_minprox` is entered at `(z, dist, i)` and executes its body
`k` times, the exit value is the least of `dist` and the proximities of the `k`
points `z_1 .. z_k` produced by the steps. -/
theorem minprox_loop_spec (c : Complex_t α) (M : Int) (s : ProxType_t) :
    ∀ (k : Nat) (z : Complex_t α) (dist : α) (i : Int),
      (∀ j : Nat, j < k → i + j < M ∧ in_bounds (orbit z c j) = true) →
      (M ≤ i + k ∨ in_bounds (orbit z c k) = false) →
      (_minprox_loop c M s z dist i = dist ∨
          ∃ j : Nat, 1 ≤ j ∧ j ≤ k ∧ _minprox_loop c M s z dist i = proximity (orbit z c j) s) ∧
        _minprox_loop c M s z dist i ≤ dist ∧
        ∀ j : Nat, 1 ≤ j → j ≤ k → _minprox_loop c M s z dist i ≤ proximity (orbit z c j) s := by
  intro k
  induction k with
  | zero =>
    intro z dist i _ hstop
    have hexit : _minprox_loop c M s z dist i = dist := by
      rw [_minprox_loop, if_neg]
      rintro ⟨h1, h2⟩
      rcases hstop with h | h
      · simp at h; omega
      · simp [orbit, h2] at h
    rw [hexit]
    exact ⟨Or.inl rfl, le_rfl, fun j h1 h0 => by omega⟩
  | succ k ih =>
    intro z dist i hrun hstop
    have h0 : i < M ∧ in_bounds z = true := by
      simpa [orbit] using hrun 0 (Nat.succ_pos k)
    have hrun1 : ∀ j : Nat, j < k → i + 1 + j < M ∧ in_bounds (orbit (f z c) c j) = true := by
      intro j hj
      have := hrun (j + 1) (Nat.succ_lt_succ hj)
      rw [orbit_succ_eq] at this
      push_cast at this
      exact ⟨by omega, this.2⟩
    have hstop1 : M ≤ i + 1 + k ∨ in_bounds (orbit (f z c) c k) = false := by
      rw [← orbit_succ_eq]
      push_cast at hstop
      rcases hstop with h | h
      · left; omega
      · right; exact h
    obtain ⟨hmem, hle, hall⟩ :=
      ih (f z c) (_min dist (proximity (f z c) s)) (i + 1) hrun1 hstop1
    rw [_minprox_loop, if_pos h0]
    rw [_min_eq_min] at hmem hle hall ⊢
    refine ⟨?_, le_trans hle (min_le_left _ _), ?_⟩
    · rcases hmem with h | ⟨j, hj1, hj2, h⟩
      · rcases min_choice dist (proximity (f z c) s) with h2 | h2
        · left; rw [h, h2]
        · right
          exact ⟨1, le_rfl, by omega, by rw [h, h2]; rfl⟩
      · right
        exact ⟨j + 1, by omega, by omega, by rw [h, orbit_succ_eq]⟩
    · intro j hj1 hj2
      obtain ⟨j, rfl⟩ : ∃ j0, j = j0 + 1 := ⟨j - 1, by omega⟩
      cases j with
      | zero => exact le_trans hle (min_le_right _ _)
      | succ j =>
        rw [orbit_succ_eq]
        exact hall (j + 1) (by omega) (by omega)

/-- The value of `_minprox` is the least proximity among `z_0 .. z_k`, where `k`
is the returned count of `_escape_iter` on the same arguments. -/
theorem minprox_least (z c : Complex_t α) (M : Int) (s : ProxType_t) :
    (∃ i : Nat, (i : Int) ≤ _escape_iter z c M ∧
        _minprox z c M s = proximity (orbit z c i) s) ∧
      ∀ i : Nat, (i : Int) ≤ _escape_iter z c M →
        _minprox z c M s ≤ proximity (orbit z c i) s := by
  obtain ⟨k, hk1, hk2⟩ := exists_exit_index c M _ z 0 rfl
  have hloop := escape_iter_loop_eq c M k z 0 hk1 hk2
  obtain ⟨hmem, hle, hall⟩ := minprox_loop_spec c M s k z (proximity z s) 0 hk1 hk2
  rw [_escape_iter, hloop, _minprox]
  constructor
  · rcases hmem with h | ⟨j, _, hj2, h⟩
    · exact ⟨0, by omega, by rw [h]; rfl⟩
    · exact ⟨j, by omega, h⟩
  · intro i hi
    cases i with
    | zero => exact hle
    | succ i => exact hall (i + 1) (by omega) (by push_cast at hi; omega)

/-- C2 (as amended): `_minprox(z, c, MAXITER, selector)` is the minimum of
`proximity(., selector)` over the orbit points `z_0 .. z_k`, where
`k = _escape_iter(z, c, MAXITER)`: the initial value and the point produced by
every executed step. -/
theorem minprox_isLeast_through_exit (z c : Complex_t α) (MAXITER : Int) (s : ProxType_t) :
    IsLeast {p : α | ∃ i : Nat, (i : Int) ≤ _escape_iter z c MAXITER ∧
        p = proximity (orbit z c i) s} (_minprox z c MAXITER s) := by
  obtain ⟨⟨i, hi, h⟩, hall⟩ := minprox_least z c MAXITER s
  refine ⟨⟨i, hi, h⟩, ?_⟩
  rintro p ⟨j, hj, rfl⟩
  exact hall j hj

theorem escape_iter_one_negone :
    _escape_iter ({ re := 1, im := 0 } : Complex_t ℚ) { re := -1, im := 0 } 1 = 1 := by
  have := escape_iter_loop_eq ({ re := -1, im := 0 } : Complex_t ℚ) 1 1 { re := 1, im := 0 } 0
    (fun j hj => by
      interval_cases j
      simp [orbit, in_bounds, in_circle]
      norm_num)
    (Or.inl (by decide))
  simpa [_escape_iter] using this

theorem minprox_one_negone :
    _minprox ({ re := 1, im := 0 } : Complex_t ℚ) { re := -1, im := 0 } 1
      { to_unit_circ := true, to_horizontal := false, to_vertical := false } = 0 := by
  rw [_minprox, _minprox_loop, if_pos (by simp [in_bounds, in_circle]; norm_num), _minprox_loop,
    if_neg (by simp)]
  simp [f_eq, proximity, _min]
  norm_num

/-- C2 (as stated) fails at `z = (1,0)`, `c = (-1,0)`, `MAXITER = 1`, unit-circle
flag only (over `ℚ`): one iteration is executed (`k = 1`), the only starting
point is `z_0 = (1,0)` with proximity `1`, yet `_minprox` returns `0`, the
proximity of the post-step point `z_1 = (0,0)`. -/
theorem minprox_not_least_over_starting_points :
    ¬ IsLeast {p : ℚ | ∃ i : Nat,
        (i = 0 ∨ (i : Int) <
          _escape_iter ({ re := 1, im := 0 } : Complex_t ℚ) { re := -1, im := 0 } 1) ∧
        p = proximity (orbit ({ re := 1, im := 0 } : Complex_t ℚ) { re := -1, im := 0 } i)
          { to_unit_circ := true, to_horizontal := false, to_vertical := false }}
      (_minprox ({ re := 1, im := 0 } : Complex_t ℚ) { re := -1, im := 0 } 1
        { to_unit_circ := true, to_horizontal := false, to_vertical := false }) := by
  rintro ⟨⟨i, hi, h⟩, -⟩
  rw [escape_iter_one_negone, minprox_one_negone] at *
  have hi0 : i = 0 := by omega
  subst hi0
  simp [orbit, proximity, _min] at h

/-- C10: for every `MAXITER >= 1`, `_minprox((0,0), (0,0), MAXITER, selector)` with
only the unit-circle flag set returns `0`. -/
theorem minprox_origin (MAXITER : Int) (_hM : 1 ≤ MAXITER) :
    _minprox ({ re := 0, im := 0 } : Complex_t α) { re := 0, im := 0 } MAXITER
      { to_unit_circ := true, to_horizontal := false, to_vertical := false } = 0 := by
  obtain ⟨⟨i, _, h⟩, _⟩ := minprox_least ({ re := 0, im := 0 } : Complex_t α)
    { re := 0, im := 0 } MAXITER
    { to_unit_circ := true, to_horizontal := false, to_vertical := false }
  rw [h, orbit_origin]
  simp [proximity, _min]

/-- Witness for C10 at `MAXITER = 50` over `ℚ`. -/
theorem minprox_origin_witness :
    (1 : Int) ≤ 50 ∧
      _minprox ({ re := 0, im := 0 } : Complex_t ℚ) { re := 0, im := 0 } 50
        { to_unit_circ := true, to_horizontal := false, to_vertical := false } = 0 :=
  ⟨by decide, minprox_origin 50 (by decide)⟩

/-! ## Orbit-trap driver: claims C3, C4 -/

/-- If the loop of `_orbit_trap` is entered at `(z, i)`, the next `k` post-step
points miss the box and the one after them is inside it (with the counter still
below `MAXITER`), the loop returns from inside with the normalised accumulator. -/
theorem orbit_trap_loop_found (c : Complex_t α) (b : Box_t α) (M : Int) (res : Complex_t α) :
    ∀ (k : Nat) (z : Complex_t α) (i : Int), i + k < M →
      (∀ j : Nat, j < k → in_box (orbit z c (j + 1)) b = false) →
      in_box (orbit z c (k + 1)) b = true →
      _orbit_trap_loop c b M res z i =
        { re := (res.re + (orbit z c (k + 1)).re) / (b.right - b.left),
          im := (res.im + (orbit z c (k + 1)).im) / (b.top - b.bot) } := by
  intro k
  induction k with
  | zero =>
    intro z i hi _ hin
    have hin1 : in_box (f z c) b = true := by simpa [orbit] using hin
    rw [_orbit_trap_loop, if_pos (by simpa using hi)]
    simp only [hin1, if_true]
    simp [orbit, complex_add]
  | succ k ih =>
    intro z i hi hmiss hin
    have h0 : in_box (f z c) b = false := by simpa [orbit] using hmiss 0 (Nat.succ_pos k)
    rw [_orbit_trap_loop, if_pos (by push_cast at hi; omega)]
    simp only [h0, Bool.false_eq_true, if_false]
    rw [ih (f z c) (i + 1) (by push_cast at hi; omega)
      (fun j hj => by rw [← orbit_succ_eq]; exact hmiss (j + 1) (Nat.succ_lt_succ hj))
      (by rw [← orbit_succ_eq]; exact hin)]
    rw [← orbit_succ_eq]

/-- If every post-step point up to the iteration cap misses the box, the loop of
`_orbit_trap` falls through and the function returns `(FZERO, FZERO)`. -/
theorem orbit_trap_loop_none (c : Complex_t α) (b : Box_t α) (M : Int) (res : Complex_t α) :
    ∀ (n : Nat) (z : Complex_t α) (i : Int), M ≤ i + n →
      (∀ j : Nat, j < n → in_box (orbit z c (j + 1)) b = false) →
      _orbit_trap_loop c b M res z i = { re := 0, im := 0 } := by
  intro n
  induction n with
  | zero =>
    intro z i hi _
    rw [_orbit_trap_loop, if_neg (by simp at hi; omega)]
  | succ n ih =>
    intro z i hi hmiss
    have h0 : in_box (f z c) b = false := by simpa [orbit] using hmiss 0 (Nat.succ_pos n)
    by_cases h1 : i < M
    · rw [_orbit_trap_loop, if_pos h1]
      simp only [h0, Bool.false_eq_true, if_false]
      exact ih (f z c) (i + 1) (by push_cast at hi; omega)
        (fun j hj => by rw [← orbit_succ_eq]; exact hmiss (j + 1) (Nat.succ_lt_succ hj))
    · rw [_orbit_trap_loop, if_neg h1]

/-- C3: if `k` is the least index with `1 <= k <= MAXITER` whose post-step point
`z_k` is strictly inside the box `b`, then `_orbit_trap(z, c, b, MAXITER)` returns
`((z_k.re - b.left) / (b.right - b.left), (z_k.im - b.bot) / (b.top - b.bot))`.
Nothing is assumed about `z_0` and the box, nor about the escape circle. -/
theorem orbit_trap_first_hit (z c : Complex_t α) (b : Box_t α) (MAXITER : Int) (k : Nat)
    (hk1 : 1 ≤ k) (hkM : (k : Int) ≤ MAXITER) (hin : in_box (orbit z c k) b = true)
    (hleast : ∀ j : Nat, 1 ≤ j → j < k → in_box (orbit z c j) b = false) :
    _orbit_trap z c b MAXITER =
      { re := ((orbit z c k).re - b.left) / (b.right - b.left),
        im := ((orbit z c k).im - b.bot) / (b.top - b.bot) } := by
  obtain ⟨k, rfl⟩ : ∃ k0, k = k0 + 1 := ⟨k - 1, by omega⟩
  rw [_orbit_trap, orbit_trap_loop_found c b MAXITER _ k z 0 (by push_cast at hkM; omega)
    (fun j hj => hleast (j + 1) (by omega) (by omega)) hin]
  simp only [neg_add_eq_sub]

/-- Witness for C3 at `z = (0,0)`, `c = (1,0)`, box `(3/2, 4) x (-1, 1)`,
`MAXITER = 5` over `ℚ`: `z_1 = (1,0)` misses the box, `z_2 = (2,0)` is inside,
and the result is `(1/5, 1/2)`. -/
theorem orbit_trap_first_hit_witness :
    (1 ≤ 2 ∧ (2 : Int) ≤ 5 ∧
      in_box (orbit ({ re := 0, im := 0 } : Complex_t ℚ) { re := 1, im := 0 } 2)
        { left := 3 / 2, right := 4, bot := -1, top := 1 } = true ∧
      ∀ j : Nat, 1 ≤ j → j < 2 →
        in_box (orbit ({ re := 0, im := 0 } : Complex_t ℚ) { re := 1, im := 0 } j)
          { left := 3 / 2, right := 4, bot := -1, top := 1 } = false) ∧
    _orbit_trap ({ re := 0, im := 0 } : Complex_t ℚ) { re := 1, im := 0 }
      { left := 3 / 2, right := 4, bot := -1, top := 1 } 5 = { re := 1 / 5, im := 1 / 2 } := by
  have hin : in_box (orbit ({ re := 0, im := 0 } : Complex_t ℚ) { re := 1, im := 0 } 2)
      { left := 3 / 2, right := 4, bot := -1, top := 1 } = true := by
    simp [orbit, f_eq, in_box]; norm_num
  have hleast : ∀ j : Nat, 1 ≤ j → j < 2 →
      in_box (orbit ({ re := 0, im := 0 } : Complex_t ℚ) { re := 1, im := 0 } j)
        { left := 3 / 2, right := 4, bot := -1, top := 1 } = false := by
    intro j h1 h2
    interval_cases j
    simp [orbit, f_eq, in_box]; norm_num
  refine ⟨⟨by decide, by decide, hin, hleast⟩, ?_⟩
  rw [orbit_trap_first_hit _ _ _ 5 2 (by decide) (by decide) hin hleast]
  simp [orbit, f_eq]; norm_num

/-- C4: if none of the iterates `z_1 .. z_MAXITER` is strictly inside the box,
`_orbit_trap(z, c, b, MAXITER)` returns exactly `(0, 0)`. -/
theorem orbit_trap_no_hit (z c : Complex_t α) (b : Box_t α) (MAXITER : Int)
    (hmiss : ∀ k : Nat, 1 ≤ k → (k : Int) ≤ MAXITER → in_box (orbit z c k) b = false) :
    _orbit_trap z c b MAXITER = { re := 0, im := 0 } := by
  rw [_orbit_trap]
  exact orbit_trap_loop_none c b MAXITER _ MAXITER.toNat z 0 (by omega)
    (fun j hj => hmiss (j + 1) (by omega) (by push_cast; omega))

/-- Witness for C4 at `z = (0,0)`, `c = (0,0)`, box `(1, 2) x (1, 2)`,
`MAXITER = 50` over `ℚ`: the orbit stays at the origin, outside the box. -/
theorem orbit_trap_no_hit_witness :
    (∀ k : Nat, 1 ≤ k → (k : Int) ≤ 50 →
      in_box (orbit ({ re := 0, im := 0 } : Complex_t ℚ) { re := 0, im := 0 } k)
        { left := 1, right := 2, bot := 1, top := 2 } = false) ∧
    _orbit_trap ({ re := 0, im := 0 } : Complex_t ℚ) { re := 0, im := 0 }
      { left := 1, right := 2, bot := 1, top := 2 } 50 = { re := 0, im := 0 } :=
  ⟨fun k _ _ => by rw [orbit_origin]; simp [in_box],
   orbit_trap_no_hit ({ re := 0, im := 0 } : Complex_t ℚ) { re := 0, im := 0 }
    { left := 1, right := 2, bot := 1, top := 2 } 50
    (fun k _ _ => by rw [orbit_origin]; simp [in_box])⟩

/-! ## A fixed point outside the escape circle: claim C6 as stated -/

theorem in_circle_iff (z z0 : Complex_t α) (r : α) :
    in_circle z z0 r = true ↔ (z.re - z0.re) ^ 2 + (z.im - z0.im) ^ 2 < r ^ 2 := by
  simp only [in_circle, decide_eq_true_eq, pow_two]

/-- C12: `in_bounds(z)` is true if and only if `z.re^2 + z.im^2 < 4` (strict), and
`in_circle(z, z0, r)` is true if and only if
`(z.re - z0.re)^2 + (z.im - z0.im)^2 < r^2`; `(0,0)` is in bounds, `(2,0)` is
not, `(1.9,0)` is. -/
theorem in_bounds_strict_circle (z z0 : Complex_t α) (r : α) :
    (in_bounds z = true ↔ z.re ^ 2 + z.im ^ 2 < 4) ∧
    (in_circle z z0 r = true ↔ (z.re - z0.re) ^ 2 + (z.im - z0.im) ^ 2 < r ^ 2) ∧
    in_bounds ({ re := 0, im := 0 } : Complex_t α) = true ∧
    in_bounds ({ re := 2, im := 0 } : Complex_t α) = false ∧
    in_bounds ({ re := 19 / 10, im := 0 } : Complex_t α) = true := by
  refine ⟨in_bounds_iff z, in_circle_iff z z0 r, ?_, ?_, ?_⟩
  · rw [in_bounds_iff]; simp [normSq]
  · rw [in_bounds_eq_false_iff]; simp only [normSq]; norm_num
  · rw [in_bounds_iff]; simp only [normSq]; norm_num

/-- C14: `f(z, c)` is the map `z^2 + c`: its real part is
`z.re^2 - z.im^2 + c.re` and its imaginary part is `2 * z.re * z.im + c.im`, and
`complex_mult(a, b)` is `(a.re*b.re - a.im*b.im, a.im*b.re + a.re*b.im)`. -/
theorem f_is_square_plus_c (z c a b : Complex_t α) :
    (f z c).re = z.re ^ 2 - z.im ^ 2 + c.re ∧
    (f z c).im = 2 * z.re * z.im + c.im ∧
    complex_mult a b =
      { re := a.re * b.re - a.im * b.im, im := a.im * b.re + a.re * b.im } := by
  rw [f_eq]
  refine ⟨by ring, by ring, rfl⟩

/-- C16: `complex_add(a, b) = complex_add(b, a)`, and `complex_add` is the
component-wise sum. -/
theorem complex_add_comm_componentwise (a b : Complex_t α) :
    complex_add a b = complex_add b a ∧
    complex_add a b = { re := a.re + b.re, im := a.im + b.im } := by
  refine ⟨?_, rfl⟩
  simp only [complex_add, add_comm]

/-! ## Minimum-proximity driver: claims C11, C18 -/

/-- C11: with all three selector flags unset, `_minprox(z, c, MAXITER, selector)`
is `1000` for every `z`, `c` and `MAXITER`. -/
theorem minprox_empty_selector (z c : Complex_t α) (MAXITER : Int) :
    _minprox z c MAXITER
      { to_unit_circ := false, to_horizontal := false, to_vertical := false } = 1000 := by
  obtain ⟨⟨i, _, h⟩, _⟩ := minprox_least z c MAXITER
    { to_unit_circ := false, to_horizontal := false, to_vertical := false }
  rw [h]
  simp [proximity]

theorem proximity_nonneg (z : Complex_t α) (s : ProxType_t) : 0 ≤ proximity z s := by
  rw [proximity_eq]
  refine le_min (le_min (le_min (by norm_num) ?_) ?_) ?_
  · split_ifs
    · positivity
    · norm_num
  · split_ifs
    · exact abs_nonneg _
    · norm_num
  · split_ifs
    · exact abs_nonneg _
    · norm_num

theorem proximity_le_sat (z : Complex_t α) (s : ProxType_t) : proximity z s ≤ 1000 := by
  rw [proximity_eq]
  exact le_trans (min_le_left _ _) (le_trans (min_le_left _ _) (min_le_left _ _))

/-- C18: with `k = _escape_iter(z, c, MAXITER)`, `_minprox(z, c, MAXITER, selector)`
is the minimum of `proximity(z_i, selector)` over all `i` with `0 <= i <= k` (it is
attained at one of them and is below all of them, the last produced point `z_k`
included); consequently `0 <= _minprox(...) <= proximity(z, selector) <= 1000`. -/
theorem minprox_min_including_last (z c : Complex_t α) (MAXITER : Int) (s : ProxType_t) :
    (∃ i : Nat, i ≤ (_escape_iter z c MAXITER).toNat ∧
        _minprox z c MAXITER s = proximity (orbit z c i) s) ∧
    (∀ i : Nat, i ≤ (_escape_iter z c MAXITER).toNat →
        _minprox z c MAXITER s ≤ proximity (orbit z c i) s) ∧
    _minprox z c MAXITER s ≤
      proximity (orbit z c (_escape_iter z c MAXITER).toNat) s ∧
    0 ≤ _minprox z c MAXITER s ∧
    _minprox z c MAXITER s ≤ proximity z s ∧
    proximity z s ≤ 1000 := by
  obtain ⟨⟨i, hi, h⟩, hall⟩ := minprox_least z c MAXITER s
  have hk : 0 ≤ _escape_iter z c MAXITER := le_trans (Int.ofNat_nonneg i) hi
  refine ⟨⟨i, by omega, h⟩, fun j hj => hall j (by omega), hall _ (by omega), ?_,
    hall 0 (by simpa using hk), proximity_le_sat z s⟩
  rw [h]
  exact proximity_nonneg _ s

/-! ## Integer power: claim C13 -/

/-- Entered at `(p, i)` with `m = n - i` iterations to go, the loop of
`complex_pow` multiplies `p` by `z` exactly `m` times. -/
theorem complex_pow_loop_eq_iterate (z : Complex_t α) (n : Int) :
    ∀ (m : Nat) (p : Complex_t α) (i : Int), (n - i).toNat = m →
      complex_pow_loop z n p i = (fun q => complex_mult q z)^[m] p := by
  intro m
  induction m with
  | zero =>
    intro p i hm
    rw [complex_pow_loop, if_neg (by omega)]
    rfl
  | succ m ih =>
    intro p i hm
    rw [complex_pow_loop, if_pos (by omega), ih (complex_mult p z) (i + 1) (by omega)]
    rfl

theorem iterate_mult_eq_power_spec (z : Complex_t α) (m : Nat) :
    (fun q => complex_mult q z)^[m] z = complex_power_spec z (m + 1) := by
  induction m with
  | zero =>
    simp [complex_power_spec, complex_mult]
  | succ m ih =>
    rw [Function.iterate_succ_apply', ih]
    rfl

/-- C13: for every integer `n >= 1`, `complex_pow(z, n)` is the `n`-fold complex
product of `z` with itself, obtained from `z` by `n - 1` multiplications by `z`;
`complex_pow(z, 1) = z` and `complex_pow(z, 2) = complex_mult(z, z)`. -/
theorem complex_pow_eq_power (z : Complex_t α) (n : Int) (hn : 1 ≤ n) :
    complex_pow z n = complex_power_spec z n.toNat ∧
    complex_pow z n = (fun q => complex_mult q z)^[(n - 1).toNat] z ∧
    complex_pow z 1 = z ∧
    complex_pow z 2 = complex_mult z z := by
  have hit : complex_pow z n = (fun q => complex_mult q z)^[(n - 1).toNat] z :=
    complex_pow_loop_eq_iterate z n (n - 1).toNat z 1 rfl
  refine ⟨?_, hit, ?_, complex_pow_two z⟩
  · rw [hit, iterate_mult_eq_power_spec]
    congr 1
    omega
  · exact complex_pow_loop_eq_iterate z 1 0 z 1 rfl

/-- Witness for C13 at `z = (1,2)`, `n = 3` over `ℚ`: `(1 + 2i)^3 = -11 - 2i`. -/
theorem complex_pow_eq_power_witness :
    (1 : Int) ≤ 3 ∧ complex_pow ({ re := 1, im := 2 } : Complex_t ℚ) 3 = { re := -11, im := -2 } := by
  refine ⟨by decide, ?_⟩
  rw [(complex_pow_eq_power ({ re := 1, im := 2 } : Complex_t ℚ) 3 (by decide)).1]
  simp [complex_power_spec, complex_mult]
  norm_num

/-! ## Escape-time driver: claim C19 -/

/-- C19: raising the iteration cap never changes the count of a point that
already escaped: for `0 <= M <= M'`,
`_escape_iter(z, c, M) = min(M, _escape_iter(z, c, M'))`; in particular
`_escape_iter` is monotone non-decreasing in `MAXITER`. -/
theorem escape_iter_cap_min (z c : Complex_t α) (M M' : Int) (hM : 0 ≤ M) (hMM : M ≤ M') :
    _escape_iter z c M = min M (_escape_iter z c M') ∧
    _escape_iter z c M ≤ _escape_iter z c M' := by
  obtain ⟨k, hk1, hk2⟩ := exists_exit_index c M' _ z 0 rfl
  have hbig := escape_iter_loop_eq c M' k z 0 hk1 hk2
  have hsmall : _escape_iter_loop c M z 0 = min M (0 + (k : Int)) := by
    by_cases hle : M ≤ (k : Int)
    · have := escape_iter_loop_eq c M M.toNat z 0
        (fun j hj => ⟨by omega, (hk1 j (by omega)).2⟩) (Or.inl (by omega))
      rw [this, min_eq_left (by omega)]
      omega
    · have hout : in_bounds (orbit z c k) = false := by
        rcases hk2 with h | h
        · omega
        · exact h
      have := escape_iter_loop_eq c M k z 0
        (fun j hj => ⟨by omega, (hk1 j hj).2⟩) (Or.inr hout)
      rw [this, min_eq_right (by omega)]
  rw [_escape_iter, _escape_iter, hbig, hsmall]
  exact ⟨rfl, min_le_right _ _⟩

/-- Witness for C19 at `z = (0,0)`, `c = (1,0)`, `M = 1`, `M' = 50` over `ℚ`. -/
theorem escape_iter_cap_min_witness :
    ((0 : Int) ≤ 1 ∧ (1 : Int) ≤ 50) ∧
    _escape_iter ({ re := 0, im := 0 } : Complex_t ℚ) { re := 1, im := 0 } 1 =
      min 1 (_escape_iter ({ re := 0, im := 0 } : Complex_t ℚ) { re := 1, im := 0 } 50) ∧
    _escape_iter ({ re := 0, im := 0 } : Complex_t ℚ) { re := 1, im := 0 } 1 ≤
      _escape_iter ({ re := 0, im := 0 } : Complex_t ℚ) { re := 1, im := 0 } 50 :=
  ⟨⟨by decide, by decide⟩,
   escape_iter_cap_min ({ re := 0, im := 0 } : Complex_t ℚ) { re := 1, im := 0 } 1 50
    (by decide) (by decide)⟩

/-! ## Binary64 arithmetic: rounding facts -/

namespace B64


theorem roundHalfEven_ge_floor (q : ℚ) : ⌊q⌋ ≤ roundHalfEven q := by
  unfold roundHalfEven
  split_ifs <;> omega

theorem roundHalfEven_le_floor_succ (q : ℚ) : roundHalfEven q ≤ ⌊q⌋ + 1 := by
  unfold roundHalfEven
  split_ifs <;> omega

theorem roundHalfEven_intCast (n : ℤ) : roundHalfEven (n : ℚ) = n := by
  unfold roundHalfEven
  simp

theorem roundHalfEven_mono {p q : ℚ} (h : p ≤ q) : roundHalfEven p ≤ roundHalfEven q := by
  have hfl : ⌊p⌋ ≤ ⌊q⌋ := Int.floor_mono h
  rcases hfl.lt_or_eq with hlt | heq
  · calc roundHalfEven p ≤ ⌊p⌋ + 1 := roundHalfEven_le_floor_succ p
      _ ≤ ⌊q⌋ := hlt
      _ ≤ roundHalfEven q := roundHalfEven_ge_floor q
  · have hfr : p - ⌊p⌋ ≤ q - ⌊q⌋ := by rw [heq]; linarith
    unfold roundHalfEven
    rw [heq] at hfr ⊢
    split_ifs <;> first | omega | (exfalso; linarith)

theorem quantum_pos (a : ℚ) : 0 < quantum a := by
  unfold quantum
  positivity

theorem roundMag_nonneg {a : ℚ} (ha : 0 ≤ a) : 0 ≤ roundMag a := by
  unfold roundMag
  apply mul_nonneg _ (quantum_pos a).le
  have : (0 : ℤ) ≤ roundHalfEven (a / quantum a) :=
    le_trans (Int.floor_nonneg.mpr (div_nonneg ha (quantum_pos a).le)) (roundHalfEven_ge_floor _)
  exact_mod_cast this


/-- The binade exponent used for rounding `a`: `⌊log2 a⌋`, clamped at `-1022`. -/
theorem quantum_eq (a : ℚ) : quantum a = (2 : ℚ) ^ (max (Int.log 2 a) (-1022) - 52) := rfl

theorem two_zpow_sub (E : ℤ) (k : ℕ) :
    (2 : ℚ) ^ E / (2 : ℚ) ^ (E - k) = ((2 ^ k : ℤ) : ℚ) := by
  rw [← zpow_sub₀ (by norm_num : (2 : ℚ) ≠ 0)]
  have : E - (E - (k : ℤ)) = (k : ℤ) := by ring
  rw [this, zpow_natCast]
  push_cast
  rfl

theorem two_zpow_mul (E : ℤ) (k : ℕ) :
    ((2 ^ k : ℤ) : ℚ) * (2 : ℚ) ^ (E - k) = (2 : ℚ) ^ E := by
  have h := two_zpow_sub E k
  have hpos : (0 : ℚ) < (2 : ℚ) ^ (E - k) := by positivity
  rw [← h, div_mul_cancel₀ _ hpos.ne']

theorem roundMag_mono {x y : ℚ} (hx : 0 < x) (hxy : x ≤ y) : roundMag x ≤ roundMag y := by
  have hy : 0 < y := lt_of_lt_of_le hx hxy
  have hL : Int.log 2 x ≤ Int.log 2 y := Int.log_mono_right hx hxy
  have hE : max (Int.log 2 x) (-1022) ≤ max (Int.log 2 y) (-1022) := max_le_max hL le_rfl
  rcases hE.lt_or_eq with hlt | heq
  · -- different binades
    set Ex := max (Int.log 2 x) (-1022) with hEx
    set Ey := max (Int.log 2 y) (-1022) with hEy
    have hEyL : Ey = Int.log 2 y := by
      rw [hEy]
      apply max_eq_left
      by_contra hcon
      push_neg at hcon
      have : Ey = -1022 := by rw [hEy]; exact max_eq_right hcon.le
      have : -1022 ≤ Ex := le_max_right _ _
      omega
    have hylo : (2 : ℚ) ^ Ey ≤ y := by
      rw [hEyL]
      exact_mod_cast Int.zpow_log_le_self (b := 2) (by norm_num) hy
    have hxhi : x < (2 : ℚ) ^ (Ex + 1) := by
      have h1 : x < (2 : ℚ) ^ (Int.log 2 x + 1) := by
        exact_mod_cast Int.lt_zpow_succ_log_self (b := 2) (by norm_num) x
      have h2 : (2 : ℚ) ^ (Int.log 2 x + 1) ≤ (2 : ℚ) ^ (Ex + 1) :=
        zpow_le_zpow_right₀ (by norm_num) (by have := le_max_left (Int.log 2 x) (-1022); omega)
      exact lt_of_lt_of_le h1 h2
    have hQx : (0 : ℚ) < (2 : ℚ) ^ (Ex - 52) := by positivity
    have hQy : (0 : ℚ) < (2 : ℚ) ^ (Ey - 52) := by positivity
    -- lower bound for y
    have hy1 : (((2 ^ 52 : ℕ) : ℤ) : ℚ) ≤ y / (2 : ℚ) ^ (Ey - 52) := by
      have := two_zpow_sub Ey 52
      push_cast at this ⊢
      rw [← this]
      exact div_le_div_of_nonneg_right hylo hQy.le
    have hy2 : ((2 ^ 52 : ℕ) : ℤ) ≤ roundHalfEven (y / (2 : ℚ) ^ (Ey - 52)) := by
      have := roundHalfEven_mono hy1
      rwa [roundHalfEven_intCast] at this
    have hy3 : (2 : ℚ) ^ Ey ≤ roundMag y := by
      unfold roundMag
      rw [quantum_eq, ← hEy]
      have h := two_zpow_mul Ey 52
      push_cast at h
      rw [← h]
      apply mul_le_mul_of_nonneg_right _ hQy.le
      have : (((2 ^ 52 : ℕ) : ℤ) : ℚ) ≤ (roundHalfEven (y / (2 : ℚ) ^ (Ey - 52)) : ℚ) := by
        exact_mod_cast hy2
      push_cast at this
      exact this
    -- upper bound for x
    have hx1 : x / (2 : ℚ) ^ (Ex - 52) ≤ (((2 ^ 53 : ℕ) : ℤ) : ℚ) := by
      have h := two_zpow_sub (Ex + 1) 53
      have he : Ex + 1 - ((53 : ℕ) : ℤ) = Ex - 52 := by push_cast; ring
      rw [he] at h
      push_cast at h ⊢
      rw [← h]
      exact div_le_div_of_nonneg_right hxhi.le hQx.le
    have hx2 : roundHalfEven (x / (2 : ℚ) ^ (Ex - 52)) ≤ ((2 ^ 53 : ℕ) : ℤ) := by
      have := roundHalfEven_mono hx1
      rwa [roundHalfEven_intCast] at this
    have hx3 : roundMag x ≤ (2 : ℚ) ^ (Ex + 1) := by
      unfold roundMag
      rw [quantum_eq, ← hEx]
      have h := two_zpow_mul (Ex + 1) 53
      have he : Ex + 1 - ((53 : ℕ) : ℤ) = Ex - 52 := by push_cast; ring
      rw [he] at h
      push_cast at h
      rw [← h]
      apply mul_le_mul_of_nonneg_right _ hQx.le
      have : (roundHalfEven (x / (2 : ℚ) ^ (Ex - 52)) : ℚ) ≤ (((2 ^ 53 : ℕ) : ℤ) : ℚ) := by
        exact_mod_cast hx2
      push_cast at this
      exact this
    calc roundMag x ≤ (2 : ℚ) ^ (Ex + 1) := hx3
      _ ≤ (2 : ℚ) ^ Ey := zpow_le_zpow_right₀ (by norm_num) (by omega)
      _ ≤ roundMag y := hy3
  · -- same binade
    unfold roundMag
    rw [quantum_eq, quantum_eq, heq]
    have hQ : (0 : ℚ) < (2 : ℚ) ^ (max (Int.log 2 y) (-1022) - 52) := by positivity
    apply mul_le_mul_of_nonneg_right _ hQ.le
    have := roundHalfEven_mono (div_le_div_of_nonneg_right hxy hQ.le)
    exact_mod_cast this


theorem log_two_eq {a : ℚ} {e : ℤ} (ha : 0 < a) (hlo : (2 : ℚ) ^ e ≤ a)
    (hhi : a < (2 : ℚ) ^ (e + 1)) : Int.log 2 a = e := by
  have h1 : e ≤ Int.log 2 a := by
    rw [← Int.zpow_le_iff_le_log (b := 2) (by norm_num) ha]
    exact_mod_cast hlo
  have h2 : Int.log 2 a < e + 1 := by
    rw [← Int.lt_zpow_iff_log_lt (b := 2) (by norm_num) ha]
    exact_mod_cast hhi
  omega

theorem roundMag_eq_of_exponent {a : ℚ} {E : ℤ} (hE : max (Int.log 2 a) (-1022) = E) :
    roundMag a = (roundHalfEven (a / (2 : ℚ) ^ (E - 52)) : ℚ) * (2 : ℚ) ^ (E - 52) := by
  unfold roundMag
  rw [quantum_eq, hE]

/-- Rounding leaves a representable magnitude unchanged. -/
theorem roundMag_of_representable {q : ℚ} (h : Representable q) : roundMag |q| = |q| := by
  obtain ⟨m, e, hme, hq⟩ := h
  have h2pos : (0 : ℚ) < (2 : ℚ) ^ e := by positivity
  rcases hme with ⟨hm1, hm2, he1, he2⟩ | ⟨hm1, hm2, he⟩
  · have hmq1 : ((2 : ℚ) ^ (52 : ℕ)) ≤ (m : ℚ) := by exact_mod_cast hm1
    have hmq2 : (m : ℚ) < ((2 : ℚ) ^ (53 : ℕ)) := by exact_mod_cast hm2
    have hapos : 0 < |q| := by rw [hq]; positivity
    have hlo : (2 : ℚ) ^ (e + 52) ≤ |q| := by
      rw [hq, zpow_add₀ (by norm_num : (2 : ℚ) ≠ 0), mul_comm ((2 : ℚ) ^ e)]
      exact mul_le_mul_of_nonneg_right (by exact_mod_cast hmq1) h2pos.le
    have hhi : |q| < (2 : ℚ) ^ (e + 52 + 1) := by
      have : e + 52 + 1 = e + 53 := by ring
      rw [this, hq, zpow_add₀ (by norm_num : (2 : ℚ) ≠ 0), mul_comm ((2 : ℚ) ^ e)]
      exact mul_lt_mul_of_pos_right (by exact_mod_cast hmq2) h2pos
    have hlog := log_two_eq hapos hlo hhi
    have hE : max (Int.log 2 |q|) (-1022) = e + 52 := by rw [hlog]; exact max_eq_left (by omega)
    rw [roundMag_eq_of_exponent hE]
    have he' : e + 52 - 52 = e := by ring
    rw [he', hq, mul_div_assoc, div_self h2pos.ne', mul_one]
    have := roundHalfEven_intCast (m : ℤ)
    push_cast at this
    rw [this]
    push_cast
    rfl
  · subst he
    have hmq1 : (0 : ℚ) < (m : ℚ) := by exact_mod_cast hm1
    have hmq2 : (m : ℚ) < ((2 : ℚ) ^ (52 : ℕ)) := by exact_mod_cast hm2
    have hapos : 0 < |q| := by rw [hq]; positivity
    have hhi : |q| < (2 : ℚ) ^ (-1022 : ℤ) := by
      have : (-1022 : ℤ) = 52 + (-1074) := by norm_num
      rw [this, hq, zpow_add₀ (by norm_num : (2 : ℚ) ≠ 0)]
      exact mul_lt_mul_of_pos_right (by exact_mod_cast hmq2) h2pos
    have hlog : Int.log 2 |q| < -1022 := by
      rw [← Int.lt_zpow_iff_log_lt (b := 2) (by norm_num) hapos]
      exact_mod_cast hhi
    have hE : max (Int.log 2 |q|) (-1022) = -1022 := max_eq_right hlog.le
    rw [roundMag_eq_of_exponent hE]
    have he' : (-1022 : ℤ) - 52 = -1074 := by norm_num
    rw [he', hq, mul_div_assoc, div_self h2pos.ne', mul_one]
    have := roundHalfEven_intCast (m : ℤ)
    push_cast at this
    rw [this]
    push_cast
    rfl

theorem representable_pos {q : ℚ} (h : Representable q) : 0 < |q| := by
  obtain ⟨m, e, hme, hq⟩ := h
  rw [hq]
  have h2pos : (0 : ℚ) < (2 : ℚ) ^ e := by positivity
  rcases hme with ⟨hm1, _, _, _⟩ | ⟨hm1, _, _⟩
  · have : (0 : ℚ) < (m : ℚ) := by
      have : 0 < m := lt_of_lt_of_le (by norm_num) hm1
      exact_mod_cast this
    positivity
  · have : (0 : ℚ) < (m : ℚ) := by exact_mod_cast hm1
    positivity

theorem representable_lt_max {q : ℚ} (h : Representable q) : |q| < (2 : ℚ) ^ (1024 : ℕ) := by
  obtain ⟨m, e, hme, hq⟩ := h
  rw [hq]
  have h2pos : (0 : ℚ) < (2 : ℚ) ^ e := by positivity
  have hm : (m : ℚ) < (2 : ℚ) ^ (53 : ℕ) := by
    rcases hme with ⟨_, hm2, _, _⟩ | ⟨_, hm2, _⟩
    · exact_mod_cast hm2
    · have : m < 2 ^ 53 := lt_trans hm2 (by norm_num)
      exact_mod_cast this
  have he : e ≤ 971 := by
    rcases hme with ⟨_, _, _, he2⟩ | ⟨_, _, he⟩
    · exact he2
    · omega
  have h1 : (2 : ℚ) ^ e ≤ (2 : ℚ) ^ (971 : ℤ) := zpow_le_zpow_right₀ (by norm_num) he
  calc (m : ℚ) * (2 : ℚ) ^ e < (2 : ℚ) ^ (53 : ℕ) * (2 : ℚ) ^ e :=
        mul_lt_mul_of_pos_right hm h2pos
    _ ≤ (2 : ℚ) ^ (53 : ℕ) * (2 : ℚ) ^ (971 : ℤ) :=
        mul_le_mul_of_nonneg_left h1 (by positivity)
    _ = (2 : ℚ) ^ (1024 : ℕ) := by
        rw [← zpow_natCast, ← zpow_add₀ (by norm_num : (2 : ℚ) ≠ 0)]
        norm_num


theorem rnd_of_pos {x : ℚ} (hx : 0 < x) :
    (rnd x = FPN.inf false ∧ (2 : ℚ) ^ (1024 : ℕ) ≤ roundMag x) ∨
    (rnd x = FPN.zero false ∧ roundMag x = 0) ∨
    (rnd x = FPN.fin (roundMag x) ∧ 0 < roundMag x ∧ roundMag x < (2 : ℚ) ^ (1024 : ℕ)) := by
  have hneg : ¬ x < 0 := not_lt.mpr hx.le
  unfold rnd
  rw [abs_of_pos hx]
  by_cases h1 : (2 : ℚ) ^ (1024 : ℕ) ≤ roundMag x
  · left
    simp [h1, hneg]
  · right
    by_cases h2 : roundMag x = 0
    · left
      simp [h1, h2, hneg]
    · right
      have hnn := roundMag_nonneg hx.le
      refine ⟨by simp [h1, h2, hneg], lt_of_le_of_ne hnn (Ne.symm h2), not_le.mp h1⟩

theorem representable_one : Representable 1 :=
  ⟨2 ^ 52, -52, Or.inl ⟨le_rfl, by norm_num, by norm_num, by norm_num⟩, by
    rw [abs_one]; norm_num [zpow_neg]⟩

theorem roundMag_one : roundMag 1 = 1 := by
  have := roundMag_of_representable representable_one
  rwa [abs_one] at this

theorem representable_min : Representable ((2 : ℚ) ^ (-1074 : ℤ)) :=
  ⟨1, -1074, Or.inr ⟨by norm_num, by norm_num, rfl⟩, by
    rw [abs_of_pos (by positivity)]; simp⟩

theorem roundMag_min : roundMag ((2 : ℚ) ^ (-1074 : ℤ)) = (2 : ℚ) ^ (-1074 : ℤ) := by
  have := roundMag_of_representable representable_min
  rwa [abs_of_pos (by positivity)] at this

/-- Every binary64 number is an integer multiple of `2^-1074`. -/
theorem representable_int_mul {q : ℚ} (h : Representable q) :
    ∃ k : ℤ, q = (k : ℚ) * (2 : ℚ) ^ (-1074 : ℤ) := by
  obtain ⟨m, e, hme, hq⟩ := h
  have he : -1074 ≤ e := by
    rcases hme with ⟨_, _, he1, _⟩ | ⟨_, _, he⟩
    · exact he1
    · omega
  obtain ⟨j, hj⟩ : ∃ j : ℕ, e = (j : ℤ) + (-1074) := ⟨(e + 1074).toNat, by omega⟩
  have habs : |q| = ((m * 2 ^ j : ℕ) : ℚ) * (2 : ℚ) ^ (-1074 : ℤ) := by
    rw [hq, hj, zpow_add₀ (by norm_num : (2 : ℚ) ≠ 0), zpow_natCast]
    push_cast
    ring
  rcases abs_choice q with h | h
  · exact ⟨((m * 2 ^ j : ℕ) : ℤ), by rw [← h, habs]; push_cast; ring⟩
  · refine ⟨-((m * 2 ^ j : ℕ) : ℤ), ?_⟩
    have : q = -|q| := by rw [h]; ring
    rw [this, habs]
    push_cast
    ring

/-- Two distinct binary64 numbers differ by at least `2^-1074`. -/
theorem representable_gap {a b : ℚ} (ha : Representable a) (hb : Representable b)
    (hlt : b < a) : (2 : ℚ) ^ (-1074 : ℤ) ≤ a - b := by
  obtain ⟨ka, hka⟩ := representable_int_mul ha
  obtain ⟨kb, hkb⟩ := representable_int_mul hb
  have hpos : (0 : ℚ) < (2 : ℚ) ^ (-1074 : ℤ) := by positivity
  have hk : kb < ka := by
    by_contra hcon
    push_neg at hcon
    have : (ka : ℚ) ≤ (kb : ℚ) := by exact_mod_cast hcon
    have := mul_le_mul_of_nonneg_right this hpos.le
    rw [← hka, ← hkb] at this
    linarith
  have hk1 : (1 : ℚ) ≤ (ka : ℚ) - (kb : ℚ) := by
    have : (1 : ℤ) ≤ ka - kb := by omega
    exact_mod_cast this
  have : a - b = ((ka : ℚ) - (kb : ℚ)) * (2 : ℚ) ^ (-1074 : ℤ) := by rw [hka, hkb]; ring
  rw [this]
  calc (2 : ℚ) ^ (-1074 : ℤ) = 1 * (2 : ℚ) ^ (-1074 : ℤ) := (one_mul _).symm
    _ ≤ ((ka : ℚ) - (kb : ℚ)) * (2 : ℚ) ^ (-1074 : ℤ) :=
        mul_le_mul_of_nonneg_right hk1 hpos.le

theorem roundMag_pos_of_gap {d : ℚ} (hd : (2 : ℚ) ^ (-1074 : ℤ) ≤ d) : 0 < roundMag d := by
  have hpos : (0 : ℚ) < (2 : ℚ) ^ (-1074 : ℤ) := by positivity
  have := roundMag_mono hpos hd
  rw [roundMag_min] at this
  linarith

theorem representable_neg {q : ℚ} (h : Representable q) : Representable (-q) := by
  obtain ⟨m, e, hme, hq⟩ := h
  exact ⟨m, e, hme, by rw [abs_neg]; exact hq⟩

/-- The normalisation step of `_orbit_trap` on a pair `0 <= num <= den`, `0 < den`:
the divisor is strictly positive and the quotient is in `[0, 1]` or NaN. -/
theorem trapPair_div {num den : FPN} (h : TrapPair num den) :
    flt (FPN.zero false) den = true ∧ UnitOrNaN (fdiv num den) := by
  rcases h with ⟨rfl, hnum⟩ | ⟨d, rfl, hd, hnum⟩
  · refine ⟨rfl, ?_⟩
    rcases hnum with rfl | rfl | ⟨n, rfl, hn⟩
    · exact Or.inl rfl
    · exact Or.inr (Or.inl rfl)
    · right; left
      simp [fdiv, not_lt.mpr hn.le]
  · refine ⟨by simp [flt, hd], ?_⟩
    rcases hnum with rfl | ⟨n, rfl, hn, hnd⟩
    · right; left
      simp [fdiv, not_lt.mpr hd.le]
    · have hq : 0 < n / d := div_pos hn hd
      have hq1 : n / d ≤ 1 := (div_le_one hd).mpr hnd
      have hr1 : roundMag (n / d) ≤ 1 := by
        have := roundMag_mono hq hq1
        rwa [roundMag_one] at this
      have hfd : fdiv (FPN.fin n) (FPN.fin d) = rnd (n / d) := rfl
      rw [hfd]
      rcases rnd_of_pos hq with ⟨_, h2⟩ | ⟨h1, _⟩ | ⟨h1, h2, _⟩
      · exfalso
        have : (1 : ℚ) < (2 : ℚ) ^ (1024 : ℕ) := by norm_num
        linarith
      · exact Or.inr (Or.inl h1)
      · exact Or.inr (Or.inr ⟨_, h1, h2, hr1⟩)


theorem fadd_fin_of_pos {a b : ℚ} (h : 0 < a + b) :
    fadd (FPN.fin a) (FPN.fin b) = rnd (a + b) := by
  simp [fadd, h.ne']

theorem trapPair_rnd_inf {n : ℚ} (hn : 0 < n) : TrapPair (rnd n) (FPN.inf false) := by
  refine Or.inl ⟨rfl, ?_⟩
  rcases rnd_of_pos hn with ⟨h, _⟩ | ⟨h, _⟩ | ⟨h, h2, _⟩
  · exact Or.inl h
  · exact Or.inr (Or.inl h)
  · exact Or.inr (Or.inr ⟨_, h, h2⟩)

theorem trapPair_rnd_rnd {n d : ℚ} (hn : 0 < n) (hnd : n ≤ d)
    (hd : (2 : ℚ) ^ (-1074 : ℤ) ≤ d) : TrapPair (rnd n) (rnd d) := by
  have hdpos : 0 < d := lt_of_lt_of_le hn hnd
  have hmono := roundMag_mono hn hnd
  have hdr := roundMag_pos_of_gap hd
  rcases rnd_of_pos hdpos with ⟨h, _⟩ | ⟨_, h0⟩ | ⟨h, h2, h3⟩
  · rw [h]; exact trapPair_rnd_inf hn
  · exfalso; linarith
  · rw [h]
    refine Or.inr ⟨_, rfl, h2, ?_⟩
    rcases rnd_of_pos hn with ⟨_, hbig⟩ | ⟨hz, _⟩ | ⟨hf, hf2, _⟩
    · exfalso; linarith
    · exact Or.inl hz
    · exact Or.inr ⟨_, hf, hf2, hmono⟩

theorem trapPair_fin_rnd {n d : ℚ} (hn : 0 < n) (hrep : Representable n) (hnd : n ≤ d) :
    TrapPair (FPN.fin n) (rnd d) := by
  have hdpos : 0 < d := lt_of_lt_of_le hn hnd
  have hmono := roundMag_mono hn hnd
  have hid : roundMag n = n := by
    have := roundMag_of_representable hrep
    rwa [abs_of_pos hn] at this
  rw [hid] at hmono
  rcases rnd_of_pos hdpos with ⟨h, _⟩ | ⟨_, h0⟩ | ⟨h, h2, _⟩
  · rw [h]; exact Or.inl ⟨rfl, Or.inr (Or.inr ⟨n, rfl, hn⟩)⟩
  · exfalso; linarith
  · rw [h]; exact Or.inr ⟨_, rfl, h2, Or.inr ⟨n, rfl, hn, hmono⟩⟩

theorem trapPair_rnd_fin {n d : ℚ} (hn : 0 < n) (hnd : n ≤ d) (hrep : Representable d) :
    TrapPair (rnd n) (FPN.fin d) := by
  have hdpos : 0 < d := lt_of_lt_of_le hn hnd
  have hmono := roundMag_mono hn hnd
  have hid : roundMag d = d := by
    have := roundMag_of_representable hrep
    rwa [abs_of_pos hdpos] at this
  have hmax : d < (2 : ℚ) ^ (1024 : ℕ) := by
    have := representable_lt_max hrep
    rwa [abs_of_pos hdpos] at this
  rw [hid] at hmono
  refine Or.inr ⟨d, rfl, hdpos, ?_⟩
  rcases rnd_of_pos hn with ⟨_, hbig⟩ | ⟨hz, _⟩ | ⟨hf, hf2, _⟩
  · exfalso; linarith
  · exact Or.inl hz
  · exact Or.inr ⟨_, hf, hf2, hmono⟩

/-- Numerator and divisor of the normalisation step, for a coordinate `p`
strictly between the box bounds `l` and `r`. -/
theorem trapPair_of_between {l p r : FPN} (hl : IsBinary64 l) (hr : IsBinary64 r)
    (h1 : flt l p = true) (h2 : flt p r = true) :
    TrapPair (fadd (fneg l) p) (fsub r l) := by
  cases p with
  | nan => cases l <;> simp [flt] at h1
  | inf s =>
    exfalso
    cases s
    · cases r <;> simp [flt] at h2
    · cases l <;> simp [flt] at h1
  | zero s =>
    cases l with
    | nan => simp [flt] at h1
    | zero t => simp [flt] at h1
    | inf t =>
      have ht : t = true := by simpa [flt] using h1
      subst ht
      cases r with
      | nan => simp [flt] at h2
      | zero u => simp [flt] at h2
      | inf u =>
        have hu : u = false := by simpa [flt] using h2
        subst hu
        exact Or.inl ⟨rfl, Or.inl rfl⟩
      | fin y => exact Or.inl ⟨rfl, Or.inl rfl⟩
    | fin a =>
      have ha : a < 0 := by simpa [flt] using h1
      have hna : 0 < -a := by linarith
      cases r with
      | nan => simp [flt] at h2
      | zero u => simp [flt] at h2
      | inf u =>
        have hu : u = false := by simpa [flt] using h2
        subst hu
        exact Or.inl ⟨rfl, Or.inr (Or.inr ⟨-a, rfl, hna⟩)⟩
      | fin y =>
        have hy : 0 < y := by simpa [flt] using h2
        have hsum : 0 < y + -a := by linarith
        have hden : fsub (FPN.fin y) (FPN.fin a) = rnd (y + -a) := fadd_fin_of_pos hsum
        have hnum : fadd (fneg (FPN.fin a)) (FPN.zero s) = FPN.fin (-a) := rfl
        rw [hden, hnum]
        exact trapPair_fin_rnd hna (representable_neg hl) (by linarith)
  | fin x =>
    cases l with
    | nan => simp [flt] at h1
    | inf t =>
      have ht : t = true := by simpa [flt] using h1
      subst ht
      cases r with
      | nan => simp [flt] at h2
      | zero u => exact Or.inl ⟨rfl, Or.inl rfl⟩
      | inf u =>
        have hu : u = false := by simpa [flt] using h2
        subst hu
        exact Or.inl ⟨rfl, Or.inl rfl⟩
      | fin y => exact Or.inl ⟨rfl, Or.inl rfl⟩
    | zero t =>
      have hx : 0 < x := by simpa [flt] using h1
      have hnum : fadd (fneg (FPN.zero t)) (FPN.fin x) = FPN.fin x := rfl
      rw [hnum]
      cases r with
      | nan => simp [flt] at h2
      | zero u =>
        have : x < 0 := by simpa [flt] using h2
        exfalso; linarith
      | inf u =>
        have hu : u = false := by simpa [flt] using h2
        subst hu
        exact Or.inl ⟨rfl, Or.inr (Or.inr ⟨x, rfl, hx⟩)⟩
      | fin y =>
        have hxy : x < y := by simpa [flt] using h2
        have hden : fsub (FPN.fin y) (FPN.zero t) = FPN.fin y := rfl
        rw [hden]
        exact Or.inr ⟨y, rfl, by linarith, Or.inr ⟨x, rfl, hx, hxy.le⟩⟩
    | fin a =>
      have hax : a < x := by simpa [flt] using h1
      have hn0 : 0 < -a + x := by linarith
      have hnum : fadd (fneg (FPN.fin a)) (FPN.fin x) = rnd (-a + x) := fadd_fin_of_pos hn0
      rw [hnum]
      cases r with
      | nan => simp [flt] at h2
      | inf u =>
        have hu : u = false := by simpa [flt] using h2
        subst hu
        exact trapPair_rnd_inf hn0
      | zero u =>
        have hx : x < 0 := by simpa [flt] using h2
        have hden : fsub (FPN.zero u) (FPN.fin a) = FPN.fin (-a) := rfl
        rw [hden]
        exact trapPair_rnd_fin hn0 (by linarith) (representable_neg hl)
      | fin y =>
        have hxy : x < y := by simpa [flt] using h2
        have hd0 : 0 < y + -a := by linarith
        have hden : fsub (FPN.fin y) (FPN.fin a) = rnd (y + -a) := fadd_fin_of_pos hd0
        rw [hden]
        have hgap : (2 : ℚ) ^ (-1074 : ℤ) ≤ y + -a := by
          have := representable_gap hr hl (lt_trans hax hxy)
          linarith
        exact trapPair_rnd_rnd hn0 (by linarith) hgap

/-! ### The orbit-trap loop over binary64 -/

theorem b64_complex_pow_two (z : Complex_t FPN) : complex_pow z 2 = complex_mult z z := by
  unfold complex_pow
  rw [complex_pow_loop, if_pos (by norm_num), complex_pow_loop, if_neg (by norm_num)]

theorem b64_orbit_succ_eq (z c : Complex_t FPN) (n : Nat) :
    orbit z c (n + 1) = orbit (f z c) c n := by
  induction n with
  | zero => rfl
  | succ n ih => rw [orbit, ih, orbit]

theorem b64_in_box_iff (p : Complex_t FPN) (b : Box_t FPN) :
    in_box p b = true ↔
      flt b.left p.re = true ∧ flt p.re b.right = true ∧
      flt b.bot p.im = true ∧ flt p.im b.top = true := by
  simp only [in_box, fgt, Bool.and_eq_true, and_assoc]

/-- If the loop is entered at `(z, i)`, the next `k` post-step points miss the
box and the one after them is inside it (with the counter still below
`MAXITER`), the loop returns from inside with the normalised accumulator. -/
theorem b64_orbit_trap_loop_found (c : Complex_t FPN) (b : Box_t FPN) (M : Int)
    (res : Complex_t FPN) :
    ∀ (k : Nat) (z : Complex_t FPN) (i : Int), i + k < M →
      (∀ j : Nat, j < k → in_box (orbit z c (j + 1)) b = false) →
      in_box (orbit z c (k + 1)) b = true →
      _orbit_trap_loop c b M res z i =
        { re := fdiv (fadd res.re (orbit z c (k + 1)).re) (fsub b.right b.left),
          im := fdiv (fadd res.im (orbit z c (k + 1)).im) (fsub b.top b.bot) } := by
  intro k
  induction k with
  | zero =>
    intro z i hi _ hin
    have hin1 : in_box (f z c) b = true := by simpa [orbit] using hin
    rw [_orbit_trap_loop, if_pos (by simpa using hi)]
    simp only [hin1, if_true]
    simp [orbit, complex_add]
  | succ k ih =>
    intro z i hi hmiss hin
    have h0 : in_box (f z c) b = false := by simpa [orbit] using hmiss 0 (Nat.succ_pos k)
    rw [_orbit_trap_loop, if_pos (by push_cast at hi; omega)]
    simp only [h0, Bool.false_eq_true, if_false]
    rw [ih (f z c) (i + 1) (by push_cast at hi; omega)
      (fun j hj => by rw [← b64_orbit_succ_eq]; exact hmiss (j + 1) (Nat.succ_lt_succ hj))
      (by rw [← b64_orbit_succ_eq]; exact hin)]
    rw [← b64_orbit_succ_eq]

/-- If some post-step point within the cap is inside the box, `_orbit_trap`
returns the normalised coordinates of the first such point. -/
theorem b64_orbit_trap_value_of_hit (z c : Complex_t FPN) (b : Box_t FPN) (M : Int)
    (hex : ∃ k : Nat, 1 ≤ k ∧ (k : Int) ≤ M ∧ in_box (orbit z c k) b = true) :
    ∃ k : Nat, 1 ≤ k ∧ (k : Int) ≤ M ∧ in_box (orbit z c k) b = true ∧
      (∀ j : Nat, 1 ≤ j → j < k → in_box (orbit z c j) b = false) ∧
      _orbit_trap z c b M =
        { re := fdiv (fadd (fneg b.left) (orbit z c k).re) (fsub b.right b.left),
          im := fdiv (fadd (fneg b.bot) (orbit z c k).im) (fsub b.top b.bot) } := by
  classical
  have hex1 : ∃ k : Nat, 1 ≤ k ∧ in_box (orbit z c k) b = true := by
    obtain ⟨k, h1, _, h3⟩ := hex
    exact ⟨k, h1, h3⟩
  obtain ⟨k, hk1, hkM, hkin⟩ := hex
  have hspec := Nat.find_spec hex1
  have hmin : Nat.find hex1 ≤ k := Nat.find_min' hex1 ⟨hk1, hkin⟩
  have hleast : ∀ j : Nat, 1 ≤ j → j < Nat.find hex1 → in_box (orbit z c j) b = false := by
    intro j hj1 hj2
    have := Nat.find_min hex1 hj2
    cases hb : in_box (orbit z c j) b
    · rfl
    · exact absurd ⟨hj1, hb⟩ this
  obtain ⟨k0, hk0⟩ : ∃ k0, Nat.find hex1 = k0 + 1 := ⟨Nat.find hex1 - 1, by omega⟩
  rw [hk0] at hspec hmin hleast
  refine ⟨k0 + 1, hspec.1, by omega, hspec.2, hleast, ?_⟩
  rw [_orbit_trap, b64_orbit_trap_loop_found c b M _ k0 z 0 (by omega)
    (fun j hj => hleast (j + 1) (by omega) (by omega)) hspec.2]

/-! ### Evaluation at concrete values -/

theorem rnd_of_representable_pos {q : ℚ} (h : Representable q) (hq : 0 < q) :
    rnd q = FPN.fin q := by
  have hid : roundMag q = q := by
    have := roundMag_of_representable h
    rwa [abs_of_pos hq] at this
  have hmax : q < (2 : ℚ) ^ (1024 : ℕ) := by
    have := representable_lt_max h
    rwa [abs_of_pos hq] at this
  rcases rnd_of_pos hq with ⟨_, hbig⟩ | ⟨_, h0⟩ | ⟨hf, _, _⟩
  · exfalso; rw [hid] at hbig; linarith
  · exfalso; rw [hid] at h0; linarith
  · rw [hf, hid]

theorem roundMag_subnormal {a : ℚ} (ha : 0 < a) (h : a < (2 : ℚ) ^ (-1022 : ℤ)) :
    roundMag a = (roundHalfEven (a / (2 : ℚ) ^ (-1074 : ℤ)) : ℚ) * (2 : ℚ) ^ (-1074 : ℤ) := by
  have hlog : Int.log 2 a < -1022 := by
    rw [← Int.lt_zpow_iff_log_lt (b := 2) (by norm_num) ha]
    exact_mod_cast h
  have hE : max (Int.log 2 a) (-1022) = -1022 := max_eq_right hlog.le
  rw [roundMag_eq_of_exponent hE]
  norm_num

/-- A quarter of the smallest subnormal number rounds to `+0`. -/
theorem rnd_quarter_min : rnd ((2 : ℚ) ^ (-1074 : ℤ) / 4) = FPN.zero false := by
  have hpos : (0 : ℚ) < (2 : ℚ) ^ (-1074 : ℤ) := by positivity
  have hx : (0 : ℚ) < (2 : ℚ) ^ (-1074 : ℤ) / 4 := by positivity
  have hlt : (2 : ℚ) ^ (-1074 : ℤ) / 4 < (2 : ℚ) ^ (-1022 : ℤ) := by
    have h1 : (2 : ℚ) ^ (-1074 : ℤ) ≤ (2 : ℚ) ^ (-1022 : ℤ) :=
      zpow_le_zpow_right₀ (by norm_num) (by norm_num)
    linarith
  have hq : (2 : ℚ) ^ (-1074 : ℤ) / 4 / (2 : ℚ) ^ (-1074 : ℤ) = 1 / 4 := by
    field_simp
  have hr : roundHalfEven (1 / 4 : ℚ) = 0 := by
    have hfl : ⌊(1 / 4 : ℚ)⌋ = 0 := by
      rw [Int.floor_eq_iff]; norm_num
    unfold roundHalfEven
    rw [hfl]
    norm_num
  have hm : roundMag ((2 : ℚ) ^ (-1074 : ℤ) / 4) = 0 := by
    rw [roundMag_subnormal hx hlt, hq, hr]
    simp
  rcases rnd_of_pos hx with ⟨_, hbig⟩ | ⟨hz, _⟩ | ⟨_, h0, _⟩
  · exfalso
    rw [hm] at hbig
    have : (0 : ℚ) < (2 : ℚ) ^ (1024 : ℕ) := by positivity
    linarith
  · exact hz
  · exfalso; rw [hm] at h0; exact lt_irrefl _ h0


theorem representable_of_normal {q : ℚ} (m : ℕ) (e : ℤ) (hm1 : 2 ^ 52 ≤ m) (hm2 : m < 2 ^ 53)
    (he1 : -1074 ≤ e) (he2 : e ≤ 971) (hq : |q| = (m : ℚ) * (2 : ℚ) ^ e) : Representable q :=
  ⟨m, e, Or.inl ⟨hm1, hm2, he1, he2⟩, hq⟩

theorem representable_two : Representable 2 :=
  representable_of_normal (2 ^ 52) (-51) le_rfl (by norm_num) (by norm_num) (by norm_num)
    (by rw [abs_of_pos (by norm_num)]; norm_num [zpow_neg])

theorem representable_four : Representable 4 :=
  representable_of_normal (2 ^ 52) (-50) le_rfl (by norm_num) (by norm_num) (by norm_num)
    (by rw [abs_of_pos (by norm_num)]; norm_num [zpow_neg])

theorem representable_half : Representable (1 / 2) :=
  representable_of_normal (2 ^ 52) (-53) le_rfl (by norm_num) (by norm_num) (by norm_num)
    (by rw [abs_of_pos (by norm_num)]; norm_num [zpow_neg])

/-- The value `1 - 2^-53` is the largest binary64 number below `1`. -/
theorem representable_pred_one :
    Representable (9007199254740991 / 9007199254740992) :=
  representable_of_normal (2 ^ 53 - 1) (-53) (by norm_num) (by norm_num) (by norm_num)
    (by norm_num) (by rw [abs_of_pos (by norm_num)]; norm_num [zpow_neg])

/-- The sum `1 + (1 - 2^-53) = 2 - 2^-53` lies halfway between the binary64
numbers `2 - 2^-52` and `2`, and the tie goes to the even significand: `2`. -/
theorem rnd_one_add_pred_one :
    rnd (1 + 9007199254740991 / 9007199254740992) = FPN.fin 2 := by
  have hx : (0 : ℚ) < 1 + 9007199254740991 / 9007199254740992 := by norm_num
  have hlog : Int.log 2 (1 + 9007199254740991 / 9007199254740992 : ℚ) = 0 :=
    log_two_eq hx (by norm_num) (by norm_num)
  have hE : max (Int.log 2 (1 + 9007199254740991 / 9007199254740992 : ℚ)) (-1022) = 0 := by
    rw [hlog]; norm_num
  have hq : (1 + 9007199254740991 / 9007199254740992 : ℚ) / (2 : ℚ) ^ ((0 : ℤ) - 52) =
      18014398509481983 / 2 := by
    norm_num [zpow_neg]
  have hfl : ⌊(18014398509481983 / 2 : ℚ)⌋ = 9007199254740991 := by
    rw [Int.floor_eq_iff]; norm_num
  have hr : roundHalfEven (18014398509481983 / 2 : ℚ) = 9007199254740992 := by
    unfold roundHalfEven
    rw [hfl]
    norm_num
  have hm : roundMag (1 + 9007199254740991 / 9007199254740992 : ℚ) = 2 := by
    rw [roundMag_eq_of_exponent hE, hq, hr]
    norm_num [zpow_neg]
  rcases rnd_of_pos hx with ⟨_, hbig⟩ | ⟨_, h0⟩ | ⟨hf, _, _⟩
  · exfalso; rw [hm] at hbig; norm_num at hbig
  · exfalso; rw [hm] at h0; norm_num at h0
  · rw [hf, hm]

/-- One step from the origin: `f((0,0), c) = (0 + c.re, 0 + c.im)`. -/
theorem b64_f_origin (c : Complex_t FPN) :
    f { re := FPN.zero false, im := FPN.zero false } c =
      { re := fadd (FPN.zero false) c.re, im := fadd (FPN.zero false) c.im } := by
  rw [f, b64_complex_pow_two]
  rfl


/-! ### Orbit-trap driver over binary64: claims C15, C17 -/

/-- The underflow input: `z = (0,0)`, `c = (2^-1074, 2^-1074)` (the smallest
positive binary64 number), box `(0,4) x (0,4)`, `MAXITER = 1`.  The point
`z_1 = c` is strictly inside the box, next to its bottom-left corner, and both
quotients `2^-1074 / 4` round to `+0`. -/
theorem b64_orbit_trap_underflow :
    in_box (orbit ({ re := FPN.zero false, im := FPN.zero false } : Complex_t FPN)
        { re := FPN.fin ((2 : ℚ) ^ (-1074 : ℤ)), im := FPN.fin ((2 : ℚ) ^ (-1074 : ℤ)) } 1)
      { left := FPN.zero false, right := FPN.fin 4, bot := FPN.zero false, top := FPN.fin 4 } =
      true ∧
    _orbit_trap ({ re := FPN.zero false, im := FPN.zero false } : Complex_t FPN)
        { re := FPN.fin ((2 : ℚ) ^ (-1074 : ℤ)), im := FPN.fin ((2 : ℚ) ^ (-1074 : ℤ)) }
        { left := FPN.zero false, right := FPN.fin 4, bot := FPN.zero false, top := FPN.fin 4 } 1 =
      { re := FPN.zero false, im := FPN.zero false } := by
  have hpos : (0 : ℚ) < (2 : ℚ) ^ (-1074 : ℤ) := by positivity
  have hlt4 : (2 : ℚ) ^ (-1074 : ℤ) < 4 := by
    have h1 : (2 : ℚ) ^ (-1074 : ℤ) ≤ (2 : ℚ) ^ (0 : ℤ) :=
      zpow_le_zpow_right₀ (by norm_num) (by norm_num)
    rw [zpow_zero] at h1
    linarith
  have horb : orbit ({ re := FPN.zero false, im := FPN.zero false } : Complex_t FPN)
      { re := FPN.fin ((2 : ℚ) ^ (-1074 : ℤ)), im := FPN.fin ((2 : ℚ) ^ (-1074 : ℤ)) } 1 =
      { re := FPN.fin ((2 : ℚ) ^ (-1074 : ℤ)), im := FPN.fin ((2 : ℚ) ^ (-1074 : ℤ)) } := by
    rw [orbit, orbit, b64_f_origin]
    rfl
  have hin : in_box (orbit ({ re := FPN.zero false, im := FPN.zero false } : Complex_t FPN)
      { re := FPN.fin ((2 : ℚ) ^ (-1074 : ℤ)), im := FPN.fin ((2 : ℚ) ^ (-1074 : ℤ)) } 1)
      { left := FPN.zero false, right := FPN.fin 4, bot := FPN.zero false, top := FPN.fin 4 } =
      true := by
    rw [horb, b64_in_box_iff]
    simp only [flt, decide_eq_true_eq]
    exact ⟨hpos, hlt4, hpos, hlt4⟩
  refine ⟨hin, ?_⟩
  rw [_orbit_trap, b64_orbit_trap_loop_found _ _ 1 _ 0 _ 0 (by norm_num) (by simp) hin, horb]
  have hq : fdiv (fadd (fneg (FPN.zero false)) (FPN.fin ((2 : ℚ) ^ (-1074 : ℤ))))
      (fsub (FPN.fin 4) (FPN.zero false)) = FPN.zero false := by
    have : fdiv (fadd (fneg (FPN.zero false)) (FPN.fin ((2 : ℚ) ^ (-1074 : ℤ))))
        (fsub (FPN.fin 4) (FPN.zero false)) = rnd ((2 : ℚ) ^ (-1074 : ℤ) / 4) := rfl
    rw [this, rnd_quarter_min]
  simp only [hq]

/-- C15: the `(0, 0)` result of `_orbit_trap` is ambiguous.  Over binary64 there
are well-formed `z`, `c`, a box `b` and `MAXITER` for which an iterate `z_k`
(`1 <= k <= MAXITER`) is trapped strictly inside `b` (at the representable point
next to its bottom-left corner) and `_orbit_trap(z, c, b, MAXITER)` returns
`(0, 0)`, the value it also returns when nothing is found (here: what the same
call returns with `MAXITER = 0`). -/
theorem b64_trapped_orbit_returns_zero :
    ∃ (z c : Complex_t FPN) (b : Box_t FPN) (MAXITER : Int) (k : Nat),
      (IsBinary64 z.re ∧ IsBinary64 z.im ∧ IsBinary64 c.re ∧ IsBinary64 c.im ∧
        IsBinary64 b.left ∧ IsBinary64 b.right ∧ IsBinary64 b.bot ∧ IsBinary64 b.top) ∧
      1 ≤ k ∧ (k : Int) ≤ MAXITER ∧ in_box (orbit z c k) b = true ∧
      _orbit_trap z c b MAXITER = { re := FPN.zero false, im := FPN.zero false } ∧
      _orbit_trap z c b MAXITER = _orbit_trap z c b 0 := by
  refine ⟨{ re := FPN.zero false, im := FPN.zero false },
    { re := FPN.fin ((2 : ℚ) ^ (-1074 : ℤ)), im := FPN.fin ((2 : ℚ) ^ (-1074 : ℤ)) },
    { left := FPN.zero false, right := FPN.fin 4, bot := FPN.zero false, top := FPN.fin 4 },
    1, 1, ?_, le_rfl, le_rfl, b64_orbit_trap_underflow.1, b64_orbit_trap_underflow.2, ?_⟩
  · exact ⟨trivial, trivial, representable_min, representable_min, trivial,
      representable_four, trivial, representable_four⟩
  · rw [b64_orbit_trap_underflow.2, _orbit_trap, _orbit_trap_loop, if_neg (by norm_num)]

/-- The tie input: `z = (0,0)`, `c = (1 - 2^-53, 1/2)`, box `(-1,1) x (0,1)`,
`MAXITER = 1`.  The point `z_1 = c` is strictly inside the box; the numerator
`1 + (1 - 2^-53)` rounds to `2`, the divisor is `2`, and the first coordinate is
exactly `1`. -/
theorem b64_orbit_trap_tie :
    in_box (orbit ({ re := FPN.zero false, im := FPN.zero false } : Complex_t FPN)
        { re := FPN.fin (9007199254740991 / 9007199254740992), im := FPN.fin (1 / 2) } 1)
      { left := FPN.fin (-1), right := FPN.fin 1, bot := FPN.zero false, top := FPN.fin 1 } =
      true ∧
    _orbit_trap ({ re := FPN.zero false, im := FPN.zero false } : Complex_t FPN)
        { re := FPN.fin (9007199254740991 / 9007199254740992), im := FPN.fin (1 / 2) }
        { left := FPN.fin (-1), right := FPN.fin 1, bot := FPN.zero false, top := FPN.fin 1 } 1 =
      { re := FPN.fin 1, im := FPN.fin (1 / 2) } := by
  have horb : orbit ({ re := FPN.zero false, im := FPN.zero false } : Complex_t FPN)
      { re := FPN.fin (9007199254740991 / 9007199254740992), im := FPN.fin (1 / 2) } 1 =
      { re := FPN.fin (9007199254740991 / 9007199254740992), im := FPN.fin (1 / 2) } := by
    rw [orbit, orbit, b64_f_origin]
    rfl
  have hin : in_box (orbit ({ re := FPN.zero false, im := FPN.zero false } : Complex_t FPN)
      { re := FPN.fin (9007199254740991 / 9007199254740992), im := FPN.fin (1 / 2) } 1)
      { left := FPN.fin (-1), right := FPN.fin 1, bot := FPN.zero false, top := FPN.fin 1 } =
      true := by
    rw [horb, b64_in_box_iff]
    simp only [flt, decide_eq_true_eq]
    norm_num
  refine ⟨hin, ?_⟩
  rw [_orbit_trap, b64_orbit_trap_loop_found _ _ 1 _ 0 _ 0 (by norm_num) (by simp) hin, horb]
  have hnum : fadd (fneg (FPN.fin (-1))) (FPN.fin (9007199254740991 / 9007199254740992)) =
      FPN.fin 2 := by
    have : fadd (fneg (FPN.fin (-1))) (FPN.fin (9007199254740991 / 9007199254740992)) =
        rnd (- -1 + 9007199254740991 / 9007199254740992) :=
      fadd_fin_of_pos (by norm_num)
    rw [this, neg_neg, rnd_one_add_pred_one]
  have hden : fsub (FPN.fin 1) (FPN.fin (-1)) = FPN.fin 2 := by
    have : fsub (FPN.fin 1) (FPN.fin (-1)) = rnd (1 + - -1) := fadd_fin_of_pos (by norm_num)
    rw [this, neg_neg, show (1 : ℚ) + 1 = 2 by norm_num,
      rnd_of_representable_pos representable_two (by norm_num)]
  have hre : fdiv (FPN.fin 2) (FPN.fin 2) = FPN.fin 1 := by
    have : fdiv (FPN.fin 2) (FPN.fin 2) = rnd (2 / 2) := rfl
    rw [this, div_self (by norm_num), rnd_of_representable_pos representable_one (by norm_num)]
  have him : fdiv (fadd (fneg (FPN.zero false)) (FPN.fin (1 / 2)))
      (fsub (FPN.fin 1) (FPN.zero false)) = FPN.fin (1 / 2) := by
    have : fdiv (fadd (fneg (FPN.zero false)) (FPN.fin (1 / 2)))
        (fsub (FPN.fin 1) (FPN.zero false)) = rnd (1 / 2 / 1) := rfl
    rw [this, div_one, rnd_of_representable_pos representable_half (by norm_num)]
  simp only [hnum, hden, hre, him]

/-- C17 (as stated) fails over binary64 at `z = (0,0)`, `c = (1 - 2^-53, 1/2)`,
box `(-1,1) x (0,1)`, `MAXITER = 1`: `z_1` is inside the box and the divisions
are reached, but the first returned component is exactly `1`, not strictly
below `1`. -/
theorem b64_orbit_trap_component_not_below_one :
    in_box (orbit ({ re := FPN.zero false, im := FPN.zero false } : Complex_t FPN)
        { re := FPN.fin (9007199254740991 / 9007199254740992), im := FPN.fin (1 / 2) } 1)
      { left := FPN.fin (-1), right := FPN.fin 1, bot := FPN.zero false, top := FPN.fin 1 } =
      true ∧
    flt (_orbit_trap ({ re := FPN.zero false, im := FPN.zero false } : Complex_t FPN)
        { re := FPN.fin (9007199254740991 / 9007199254740992), im := FPN.fin (1 / 2) }
        { left := FPN.fin (-1), right := FPN.fin 1, bot := FPN.zero false, top := FPN.fin 1 }
        1).re (FPN.fin 1) = false := by
  refine ⟨b64_orbit_trap_tie.1, ?_⟩
  rw [b64_orbit_trap_tie.2]
  simp [flt]

/-- C17 (as amended): for every `z`, `c`, `MAXITER` and every box `b` of binary64
values (no ordering of its bounds assumed), whenever `_orbit_trap` reaches its
two divisions, that is whenever some `z_k` with `1 <= k <= MAXITER` is inside
`b`, the divisors `b.right - b.left` and `b.top - b.bot` are strictly positive
(no division by zero is reachable), and each component of the returned pair is
`+0`, a number in `(0, 1]`, or NaN. -/
theorem b64_orbit_trap_divisions (z c : Complex_t FPN) (b : Box_t FPN) (MAXITER : Int)
    (k : Nat)
    (hb : IsBinary64 b.left ∧ IsBinary64 b.right ∧ IsBinary64 b.bot ∧ IsBinary64 b.top)
    (hk1 : 1 ≤ k) (hkM : (k : Int) ≤ MAXITER) (hin : in_box (orbit z c k) b = true) :
    flt (FPN.zero false) (fsub b.right b.left) = true ∧
    flt (FPN.zero false) (fsub b.top b.bot) = true ∧
    UnitOrNaN (_orbit_trap z c b MAXITER).re ∧
    UnitOrNaN (_orbit_trap z c b MAXITER).im := by
  obtain ⟨hl, hr, hbo, hto⟩ := hb
  obtain ⟨k0, _, _, hin0, _, hval⟩ :=
    b64_orbit_trap_value_of_hit z c b MAXITER ⟨k, hk1, hkM, hin⟩
  obtain ⟨h1, h2, h3, h4⟩ := (b64_in_box_iff _ _).1 hin0
  obtain ⟨hre1, hre2⟩ := trapPair_div (trapPair_of_between hl hr h1 h2)
  obtain ⟨him1, him2⟩ := trapPair_div (trapPair_of_between hbo hto h3 h4)
  rw [hval]
  exact ⟨hre1, him1, hre2, him2⟩

/-- Witness for C17 (as amended) at the tie input: the divisors are `2` and `1`,
and the returned pair is `(1, 1/2)`. -/
theorem b64_orbit_trap_divisions_witness :
    ((IsBinary64 (FPN.fin (-1)) ∧ IsBinary64 (FPN.fin 1) ∧ IsBinary64 (FPN.zero false) ∧
        IsBinary64 (FPN.fin 1)) ∧ 1 ≤ 1 ∧ ((1 : Nat) : Int) ≤ 1 ∧
      in_box (orbit ({ re := FPN.zero false, im := FPN.zero false } : Complex_t FPN)
          { re := FPN.fin (9007199254740991 / 9007199254740992), im := FPN.fin (1 / 2) } 1)
        { left := FPN.fin (-1), right := FPN.fin 1, bot := FPN.zero false, top := FPN.fin 1 } =
        true) ∧
    flt (FPN.zero false) (fsub (FPN.fin 1) (FPN.fin (-1))) = true ∧
    flt (FPN.zero false) (fsub (FPN.fin 1) (FPN.zero false)) = true ∧
    UnitOrNaN (_orbit_trap ({ re := FPN.zero false, im := FPN.zero false } : Complex_t FPN)
        { re := FPN.fin (9007199254740991 / 9007199254740992), im := FPN.fin (1 / 2) }
        { left := FPN.fin (-1), right := FPN.fin 1, bot := FPN.zero false, top := FPN.fin 1 }
        1).re ∧
    UnitOrNaN (_orbit_trap ({ re := FPN.zero false, im := FPN.zero false } : Complex_t FPN)
        { re := FPN.fin (9007199254740991 / 9007199254740992), im := FPN.fin (1 / 2) }
        { left := FPN.fin (-1), right := FPN.fin 1, bot := FPN.zero false, top := FPN.fin 1 }
        1).im := by
  have hbox : IsBinary64 (FPN.fin (-1)) ∧ IsBinary64 (FPN.fin 1) ∧
      IsBinary64 (FPN.zero false) ∧ IsBinary64 (FPN.fin 1) :=
    ⟨representable_neg representable_one, representable_one, trivial, representable_one⟩
  exact ⟨⟨hbox, le_rfl, le_rfl, b64_orbit_trap_tie.1⟩,
    b64_orbit_trap_divisions _ _
      { left := FPN.fin (-1), right := FPN.fin 1, bot := FPN.zero false, top := FPN.fin 1 }
      1 1 hbox le_rfl le_rfl b64_orbit_trap_tie.1⟩


/-! ### Magnitude bounds through rounded operations -/

theorem roundMag_two_zpow (j : ℤ) (hj : -1022 ≤ j) : roundMag ((2 : ℚ) ^ j) = (2 : ℚ) ^ j := by
  have hpos : (0 : ℚ) < (2 : ℚ) ^ j := by positivity
  have hlog : Int.log 2 ((2 : ℚ) ^ j) = j :=
    log_two_eq hpos le_rfl (zpow_lt_zpow_right₀ (by norm_num) (by omega))
  have hE : max (Int.log 2 ((2 : ℚ) ^ j)) (-1022) = j := by rw [hlog]; exact max_eq_left hj
  have h1 := two_zpow_sub j 52
  have h2 := two_zpow_mul j 52
  simp only [Nat.cast_ofNat] at h1 h2
  rw [roundMag_eq_of_exponent hE, h1, roundHalfEven_intCast]
  exact h2

theorem magLe_mono {v : FPN} {m n : ℚ} (h : MagLe v m) (hnm : m ≤ n) : MagLe v n := by
  cases v <;> simp only [MagLe] at h ⊢
  exact le_trans h hnm

theorem b64_f_eq (z c : Complex_t FPN) :
    f z c =
      { re := fadd (fsub (fmul z.re z.re) (fmul z.im z.im)) c.re,
        im := fadd (fadd (fmul z.im z.re) (fmul z.re z.im)) c.im } := by
  rw [f, b64_complex_pow_two]
  rfl

theorem fmul_nan_right (v : FPN) : fmul v FPN.nan = FPN.nan := by cases v <;> rfl

theorem fsub_zero (v : FPN) : fsub v (FPN.zero false) = v := by
  cases v <;> simp [fsub, fneg, fadd]

theorem roundMag_four : roundMag (4 : ℚ) = 4 := by
  have h := roundMag_two_zpow 2 (by norm_num)
  norm_num at h
  exact h

theorem fmul_two_two : fmul (FPN.fin 2) (FPN.fin 2) = FPN.fin 4 := by
  show rnd (2 * 2) = FPN.fin 4
  have h4 : (2 : ℚ) * 2 = 4 := by norm_num
  rw [h4]
  rcases rnd_of_pos (show (0 : ℚ) < 4 by norm_num) with h | h | h
  · exfalso
    have := h.2
    rw [roundMag_four] at this
    norm_num at this
  · exfalso
    have := h.2
    rw [roundMag_four] at this
    norm_num at this
  · rw [h.1, roundMag_four]

/-- The loop test `in_bounds(z)` is the comparison `|z|^2 < 4` on the rounded
squared modulus. -/
theorem b64_in_bounds_eq (z : Complex_t FPN) : in_bounds z = flt (normSq z) (FPN.fin 4) := by
  unfold in_bounds in_circle normSq
  simp only [fsub_zero, fmul_two_two]

theorem roundHalfEven_eq_of_near {q : ℚ} {m : ℤ} (h1 : (m : ℚ) - 1 / 2 < q)
    (h2 : q < (m : ℚ) + 1 / 2) : roundHalfEven q = m := by
  unfold roundHalfEven
  rcases le_or_lt (m : ℚ) q with hmq | hmq
  · have hfl : ⌊q⌋ = m := by
      rw [Int.floor_eq_iff]
      exact ⟨hmq, by linarith⟩
    rw [hfl, if_pos (by linarith)]
  · have hfl : ⌊q⌋ = m - 1 := by
      rw [Int.floor_eq_iff]
      push_cast
      exact ⟨by linarith, by linarith⟩
    rw [hfl]
    push_cast
    rw [if_neg (by linarith), if_pos (by linarith)]
    ring

/-- Rounding a positive `x` in the binade `[2^e, 2^(e+1))`, `e >= -1022`: the result
is the multiple `v` of `2^(e-52)` that lies within half a unit of `x`. -/
theorem rnd_eval_pos {x v : ℚ} (e m : ℤ) (he : -1022 ≤ e) (hlo : (2 : ℚ) ^ e ≤ x)
    (hhi : x < (2 : ℚ) ^ (e + 1)) (hv : v = (m : ℚ) * (2 : ℚ) ^ (e - 52))
    (h1 : v - (2 : ℚ) ^ (e - 52) / 2 < x) (h2 : x < v + (2 : ℚ) ^ (e - 52) / 2)
    (hmax : v < (2 : ℚ) ^ (1024 : ℕ)) : rnd x = FPN.fin v := by
  have hpos : (0 : ℚ) < (2 : ℚ) ^ e := by positivity
  have hx : 0 < x := lt_of_lt_of_le hpos hlo
  have hs : (0 : ℚ) < (2 : ℚ) ^ (e - 52) := by positivity
  have hE : max (Int.log 2 x) (-1022) = e := by
    rw [log_two_eq hx hlo hhi]
    exact max_eq_left he
  have hr : roundHalfEven (x / (2 : ℚ) ^ (e - 52)) = m := by
    apply roundHalfEven_eq_of_near
    · rw [lt_div_iff₀ hs]
      rw [hv] at h1
      linarith
    · rw [div_lt_iff₀ hs]
      rw [hv] at h2
      linarith
  have hrm : roundMag x = v := by
    rw [roundMag_eq_of_exponent hE, hr, hv]
  have hge : (2 : ℚ) ^ e ≤ roundMag x := by
    have h := roundMag_mono hpos hlo
    rwa [roundMag_two_zpow e he] at h
  rcases rnd_of_pos hx with h | h | h
  · exfalso
    have := h.2
    rw [hrm] at this
    linarith
  · exfalso
    have := h.2
    linarith
  · rw [h.1, hrm]

theorem fadd_fin_fin {x y : ℚ} (h : x + y ≠ 0) :
    fadd (FPN.fin x) (FPN.fin y) = rnd (x + y) := if_neg h

theorem b64_orbit_three_negsix (n : ℕ) :
    orbit ({ re := FPN.fin 3, im := FPN.zero false } : Complex_t FPN)
      { re := FPN.fin (-6), im := FPN.zero false } n =
      { re := FPN.fin 3, im := FPN.zero false } := by
  have h9 : rnd 9 = FPN.fin 9 :=
    rnd_eval_pos 3 (9 * 2 ^ 49) (by norm_num) (by norm_num) (by norm_num)
      (by norm_num [zpow_neg]) (by norm_num [zpow_neg]) (by norm_num [zpow_neg]) (by norm_num)
  have h3 : rnd 3 = FPN.fin 3 :=
    rnd_eval_pos 1 (3 * 2 ^ 51) (by norm_num) (by norm_num) (by norm_num)
      (by norm_num [zpow_neg]) (by norm_num [zpow_neg]) (by norm_num [zpow_neg]) (by norm_num)
  have hstep : f ({ re := FPN.fin 3, im := FPN.zero false } : Complex_t FPN)
      { re := FPN.fin (-6), im := FPN.zero false } =
      { re := FPN.fin 3, im := FPN.zero false } := by
    rw [b64_f_eq]
    have hX : fmul (FPN.fin 3) (FPN.fin 3) = FPN.fin 9 := by
      show rnd (3 * 3) = FPN.fin 9
      norm_num
      exact h9
    have hY : fmul (FPN.zero false) (FPN.zero false) = FPN.zero false := rfl
    have hD : fsub (FPN.fin 9) (FPN.zero false) = FPN.fin 9 := fsub_zero _
    have hR : fadd (FPN.fin 9) (FPN.fin (-6)) = FPN.fin 3 := by
      rw [fadd_fin_fin (by norm_num)]
      norm_num
      exact h3
    have hP : fmul (FPN.zero false) (FPN.fin 3) = FPN.zero false := by simp [fmul]
    have hQ : fmul (FPN.fin 3) (FPN.zero false) = FPN.zero false := by simp [fmul]
    have hS : fadd (FPN.zero false) (FPN.zero false) = FPN.zero false := rfl
    simp only [hX, hY, hD, hR, hP, hQ, hS]
  induction n with
  | zero => rfl
  | succ n ih => rw [orbit, ih, hstep]

/-- The fixed point `z = (3, 0)` of `f(., (-6, 0))` in binary64 arithmetic: every
operation is exact on these values, the orbit is constant, and every point has
squared modulus `9`. -/
theorem b64_orbit_fixed_point_outside_circle (n : ℕ) :
    in_bounds ({ re := FPN.fin 3, im := FPN.zero false } : Complex_t FPN) = false ∧
    normSq (orbit ({ re := FPN.fin 3, im := FPN.zero false } : Complex_t FPN)
      { re := FPN.fin (-6), im := FPN.zero false } n) = FPN.fin 9 := by
  have h9 : rnd 9 = FPN.fin 9 :=
    rnd_eval_pos 3 (9 * 2 ^ 49) (by norm_num) (by norm_num) (by norm_num)
      (by norm_num [zpow_neg]) (by norm_num [zpow_neg]) (by norm_num [zpow_neg]) (by norm_num)
  have hN : normSq ({ re := FPN.fin 3, im := FPN.zero false } : Complex_t FPN) = FPN.fin 9 := by
    show fadd (rnd (3 * 3)) (FPN.zero false) = FPN.fin 9
    norm_num
    rw [h9]
    rfl
  constructor
  · rw [b64_in_bounds_eq, hN]
    simp only [flt, decide_eq_false_iff_not]
    norm_num
  · rw [b64_orbit_three_negsix, hN]

/-! ### Divergence from outside the square of half-side 4: claim C6 -/

end B64

end Mandel
